import Mathlib

/-!
# TracEon — verification of the SmartStrategy codecs, parsers and cache snapshot

Shallow embedding of the TracEon sources (`src/SmartStrategy.cpp`,
`src/Cache.cpp`, the `FileReader` implementation).  Strings and byte
vectors are modelled as `List Nat` of byte values; machine integers are
`Nat` with explicit `% 2 ^ 32` / `% 2 ^ 64` where the C++ code truncates.

The source file `SmartStrategy.cpp` contains two design iterations; the
codec functions (`encode`, `decode`, `encode_nucleotide`, `encode_rle`, …)
exist only in the second iteration, which is embedded here.  Both
iterations of `loadFile` are embedded where claims refer to both.
-/

namespace TracEon

/-- `std::toupper` on ASCII byte values (the sources only ever feed ASCII). -/
def toupperB (c : Nat) : Nat :=
  if 97 ≤ c ∧ c ≤ 122 then c - 32 else c

/-- `std::isalpha` on ASCII byte values. -/
def isalphaB (c : Nat) : Bool :=
  (65 ≤ c && c ≤ 90) || (97 ≤ c && c ≤ 122)

/-- The per-character test inside `SmartStrategy::isNucleotideSequence`:
`upper_c` is one of `A T G C U N`. -/
def isNucByte (c : Nat) : Bool :=
  let u := toupperB c
  u = 65 || u = 84 || u = 71 || u = 67 || u = 85 || u = 78

/-- `SmartStrategy::isNucleotideSequence` (SmartStrategy.cpp, second
iteration, lines 802-816): at least one alphabetic character and the
fraction of nucleotide letters among the alphabetic ones exceeds 0.8.
The C++ comparison `(double)n / t > 0.8` is modelled by the exact rational
test `4 * t < 5 * n`: for counts below `2 ^ 31` the two agree, because the
gap between any representable fraction `n / t` and `4 / 5` exceeds the
rounding error of the IEEE division and of the literal `0.8`. -/
def isNucleotideSequence (data : List Nat) : Bool :=
  if data = [] then false
  else
    let total := (data.filter isalphaB).length
    let nuc := (data.filter (fun c => isalphaB c && isNucByte c)).length
    decide (0 < total) && decide (4 * total < 5 * nuc)

/-- `SmartStrategy::hasRNA`: the sequence contains `U` (85) or `u` (117). -/
def hasRNA (data : List Nat) : Bool :=
  data.contains 85 || data.contains 117

/-- `baseToBits` (anonymous namespace of SmartStrategy.cpp):
`A/a → 0`, `C/c → 1`, `G/g → 2`, `T/t/U/u → 3`, everything else `0`. -/
def baseToBits (c : Nat) : Nat :=
  if c = 65 ∨ c = 97 then 0
  else if c = 67 ∨ c = 99 then 1
  else if c = 71 ∨ c = 103 then 2
  else if c = 84 ∨ c = 116 ∨ c = 85 ∨ c = 117 then 3
  else 0

/-- `bitsToBase`: `0 → A`, `1 → C`, `2 → G`, `3 → T`, default `N`. -/
def bitsToBase (b : Nat) : Nat :=
  if b = 0 then 65
  else if b = 1 then 67
  else if b = 2 then 71
  else if b = 3 then 84
  else 78

/-- The four big-endian bytes of a `uint32` value, as written by
`encode_nucleotide` (`(v >> 24) & 0xFF`, …). -/
def be32 (n : Nat) : List Nat :=
  [n / 2 ^ 24 % 256, n / 2 ^ 16 % 256, n / 2 ^ 8 % 256, n % 256]

/-- The four bytes of a `uint32` as laid out in memory on the little-endian
hosts the snapshot format documents (`memcpy` of a `uint32_t`). -/
def le32 (n : Nat) : List Nat :=
  [n % 256, n / 2 ^ 8 % 256, n / 2 ^ 16 % 256, n / 2 ^ 24 % 256]

/-- The eight bytes of a `uint64`, little-endian (`memcpy`/`file.write` of a
`uint64_t` on a little-endian host). -/
def le64 (n : Nat) : List Nat :=
  [n % 256, n / 2 ^ 8 % 256, n / 2 ^ 16 % 256, n / 2 ^ 24 % 256,
   n / 2 ^ 32 % 256, n / 2 ^ 40 % 256, n / 2 ^ 48 % 256, n / 2 ^ 56 % 256]

/-- Reassembling a big-endian `uint32` as `decode_nucleotide` does:
`(uint32(d0) << 24) | (uint32(d1) << 16) | (uint32(d2) << 8) | uint32(d3)`.
Reads past the end of the buffer (undefined behaviour in the C++) are
modelled as byte `0`. -/
def readBE32 (d : List Nat) (off : Nat) : Nat :=
  d.getD off 0 <<< 24 ||| d.getD (off + 1) 0 <<< 16 |||
    d.getD (off + 2) 0 <<< 8 ||| d.getD (off + 3) 0

/-- Reassembling a little-endian `uint32` (a `memcpy` into a `uint32_t` on a
little-endian host). -/
def readLE32 (d : List Nat) (off : Nat) : Nat :=
  d.getD off 0 + d.getD (off + 1) 0 * 2 ^ 8 +
    d.getD (off + 2) 0 * 2 ^ 16 + d.getD (off + 3) 0 * 2 ^ 24

/-- Reassembling a little-endian `uint64`. -/
def readLE64 (d : List Nat) (off : Nat) : Nat :=
  d.getD off 0 + d.getD (off + 1) 0 * 2 ^ 8 +
    d.getD (off + 2) 0 * 2 ^ 16 + d.getD (off + 3) 0 * 2 ^ 24 +
    d.getD (off + 4) 0 * 2 ^ 32 + d.getD (off + 5) 0 * 2 ^ 40 +
    d.getD (off + 6) 0 * 2 ^ 48 + d.getD (off + 7) 0 * 2 ^ 56

/-! ## Run-length codec (`encode_rle` / `decode_rle`) -/

/-- The inner loop of `SmartStrategy::encode_rle`: `c` is the current run
byte, `count` the run length so far (capped at 255); emit `(count, byte)`
and start a fresh run when the run ends. -/
def rleAux : Nat → Nat → List Nat → List Nat
  | c, count, [] => [count, c]
  | c, count, d :: rest =>
    if d = c ∧ count < 255 then rleAux c (count + 1) rest
    else count :: c :: rleAux d 1 rest

/-- `SmartStrategy::encode_rle` (lines 870-882): a sequence of
`(count, byte)` pairs with `count ∈ 1..255`. Empty input encodes to `[]`. -/
def encode_rle (data : List Nat) : List Nat :=
  match data with
  | [] => []
  | c :: rest => rleAux c 1 rest

/-- `SmartStrategy::decode_rle` (lines 884-893): for each `(count, byte)`
pair append `byte` `count` times; a trailing lone byte is ignored. -/
def decode_rle : List Nat → List Nat
  | a :: b :: rest => List.replicate a b ++ decode_rle rest
  | _ => []

/-! ## Nucleotide codec (`encode_nucleotide` / `decode_nucleotide`) -/

/-- The `N`-position scan of `encode_nucleotide`: indices `i` (below the
truncated length) with `toupper(data[i]) == 'N'`, in increasing order. -/
def nPositions (data : List Nat) : List Nat :=
  (List.range data.length).filter (fun i => toupperB (data.getD i 0) = 78)

/-- One iteration of the packing loop of `encode_nucleotide`:
`encoded[8 + i/4] |= baseToBits(data[i]) << ((3 - i % 4) * 2)`. -/
def packStep (data : List Nat) (acc : List Nat) (i : Nat) : List Nat :=
  acc.set (8 + i / 4)
    (acc.getD (8 + i / 4) 0 ||| baseToBits (data.getD i 0) <<< ((3 - i % 4) * 2))

/-- `SmartStrategy::encode_nucleotide` (lines 822-848).  `original_length`
is the string length truncated to `uint32`; the buffer is allocated as
`8 + ⌈L/4⌉ + 4·k` zero bytes, the two big-endian headers are written, the
packing loop fills the 2-bit region, and the `N` positions are
`memcpy`-ed (little-endian `uint32` each) after it. -/
def encode_nucleotide (s : List Nat) : List Nat :=
  let L := s.length % 2 ^ 32
  let data := s.take L
  let npos := nPositions data
  let k := npos.length
  let hdr := be32 L ++ be32 k
  let packed := (List.range L).foldl (packStep data)
    (hdr ++ List.replicate ((L + 3) / 4) 0)
  packed ++ (npos.map le32).flatten

/-- `SmartStrategy::decode_nucleotide` (lines 850-868): read the two
big-endian headers, rebuild `L` bases from the 2-bit region, then
overwrite every listed `N` position (bounds-checked) with `'N'` (78). -/
def decode_nucleotide (d : List Nat) : List Nat :=
  if d.length < 8 then []
  else
    let L := readBE32 d 0
    let k := readBE32 d 4
    let body := (List.range L).map (fun i =>
      bitsToBase (d.getD (8 + i / 4) 0 >>> ((3 - i % 4) * 2) &&& 3))
    if 0 < k then
      let npos := (List.range k).map (fun j => readLE32 d (8 + (L + 3) / 4 + 4 * j))
      npos.foldl (fun acc pos => if pos < acc.length then acc.set pos 78 else acc) body
    else body

/-- `SmartStrategy::encode_plain`: identity on bytes. -/
def encode_plain (data : List Nat) : List Nat := data

/-- `SmartStrategy::decode_plain`: identity on bytes. -/
def decode_plain (data : List Nat) : List Nat := data

/-- `DataTypeHint` (encoder façade hint). -/
inductive DataTypeHint where
  | Generic
  | QualityScore
deriving DecidableEq, Repr

/-- `SmartStrategy::encode` (lines 773-788): empty input returns the empty
vector; a `QualityScore` hint selects the RLE codec (tag `0x12` = 18);
otherwise a nucleotide classification selects the 2-bit codec (tag
`0x01` = 1), and anything else the plain copy (tag `0x21` = 33). -/
def encode (data : List Nat) (hint : DataTypeHint) : List Nat :=
  if data = [] then []
  else if hint = .QualityScore then 18 :: encode_rle data
  else if isNucleotideSequence data then 1 :: encode_nucleotide data
  else 33 :: encode_plain data

/-- `SmartStrategy::decode` (lines 790-800): dispatch on the first byte;
unknown tags (and the empty vector) decode to the empty string. -/
def decode (data : List Nat) : List Nat :=
  match data with
  | [] => []
  | t :: payload =>
    if t = 1 then decode_nucleotide payload
    else if t = 18 then decode_rle payload
    else if t = 33 then decode_plain payload
    else []

/-! ## RLE round-trip -/

theorem decode_rle_rleAux (rest : List Nat) :
    ∀ c count, decode_rle (rleAux c count rest) = List.replicate count c ++ rest := by
  induction rest with
  | nil =>
    intro c count
    simp [rleAux, decode_rle]
  | cons d r ih =>
    intro c count
    by_cases h : d = c ∧ count < 255
    · rw [rleAux, if_pos h, ih, List.replicate_succ']
      simp [h.1]
    · rw [rleAux, if_neg h]
      show List.replicate count c ++ decode_rle (rleAux d 1 r) = _
      rw [ih]
      simp

theorem decode_rle_encode_rle (q : List Nat) : decode_rle (encode_rle q) = q := by
  cases q with
  | nil => rfl
  | cons c rest => simp [encode_rle, decode_rle_rleAux]

/-- C2: for every quality string with bytes in `33..126` (runs longer than
255 included, and the empty string), the `QualityScore` encoding decodes
back to the exact input. -/
theorem quality_roundtrip (q : List Nat) (hq : ∀ c ∈ q, 33 ≤ c ∧ c ≤ 126) :
    decode (encode q .QualityScore) = q := by
  cases q with
  | nil => rfl
  | cons c rest =>
    show decode (18 :: encode_rle (c :: rest)) = c :: rest
    simp [decode, decode_rle_encode_rle]

set_option maxRecDepth 4000 in
/-- Witness for C2: a concrete quality string containing a run of 300
identical bytes (which the encoder must split) round-trips. -/
theorem quality_roundtrip_witness :
    decode (encode (List.replicate 300 70 ++ [33, 126]) .QualityScore)
      = List.replicate 300 70 ++ [33, 126] :=
  quality_roundtrip _ (by decide)

/-- C9: `encode` returns the empty vector (with no type tag) on empty input
for both hints, and `decode` of the empty vector is the empty string, so
the empty string round-trips. -/
theorem encode_empty_no_tag :
    encode [] .Generic = [] ∧ encode [] .QualityScore = [] ∧ decode [] = [] :=
  ⟨rfl, rfl, rfl⟩

/-! ## Bit-arithmetic helpers for the 2-bit codec -/

theorem lor_high_low (b a n : Nat) (h : a < 2 ^ n) : 2 ^ n * b ||| a = 2 ^ n * b + a := by
  apply Nat.eq_of_testBit_eq
  intro i
  rw [Nat.testBit_lor, Nat.testBit_mul_pow_two_add b h]
  by_cases hi : i < n
  · have hb : (2 ^ n * b).testBit i = false := by
      have := Nat.testBit_mul_pow_two_add b (b := 0) (i := n) (Nat.pos_pow_of_pos n (by norm_num)) i
      simpa [hi] using this
    simp [hb, hi]
  · have ha : a.testBit i = false :=
      Nat.testBit_eq_false_of_lt (lt_of_lt_of_le h (Nat.pow_le_pow_right (by norm_num) (by omega)))
    have hb : (2 ^ n * b).testBit i = b.testBit (i - n) := by
      have := Nat.testBit_mul_pow_two_add b (b := 0) (i := n) (Nat.pos_pow_of_pos n (by norm_num)) i
      simpa [hi] using this
    simp [hb, ha, hi]

theorem and_three_eq_mod (x : Nat) : x &&& 3 = x % 4 := by
  have := Nat.and_pow_two_sub_one_eq_mod x 2
  norm_num at this
  exact this

theorem readBE32_bytes (d0 d1 d2 d3 : Nat) (rest : List Nat)
    (h0 : d0 < 256) (h1 : d1 < 256) (h2 : d2 < 256) (h3 : d3 < 256) :
    readBE32 (d0 :: d1 :: d2 :: d3 :: rest) 0
      = d0 * 2 ^ 24 + d1 * 2 ^ 16 + d2 * 2 ^ 8 + d3 := by
  show d0 <<< 24 ||| d1 <<< 16 ||| d2 <<< 8 ||| d3 = _
  rw [Nat.shiftLeft_eq, Nat.shiftLeft_eq, Nat.shiftLeft_eq]
  have e1 : d0 * 2 ^ 24 ||| d1 * 2 ^ 16 = d0 * 2 ^ 24 + d1 * 2 ^ 16 := by
    have := lor_high_low d0 (d1 * 2 ^ 16) 24 (by omega)
    rw [Nat.mul_comm] at this
    exact this
  have e2 : d0 * 2 ^ 24 + d1 * 2 ^ 16 ||| d2 * 2 ^ 8
      = d0 * 2 ^ 24 + d1 * 2 ^ 16 + d2 * 2 ^ 8 := by
    have := lor_high_low (d0 * 2 ^ 8 + d1) (d2 * 2 ^ 8) 16 (by omega)
    have hmul : 2 ^ 16 * (d0 * 2 ^ 8 + d1) = d0 * 2 ^ 24 + d1 * 2 ^ 16 := by ring
    rw [hmul] at this
    exact this
  have e3 : d0 * 2 ^ 24 + d1 * 2 ^ 16 + d2 * 2 ^ 8 ||| d3
      = d0 * 2 ^ 24 + d1 * 2 ^ 16 + d2 * 2 ^ 8 + d3 := by
    have := lor_high_low (d0 * 2 ^ 16 + d1 * 2 ^ 8 + d2) d3 8 (by omega)
    have hmul : 2 ^ 8 * (d0 * 2 ^ 16 + d1 * 2 ^ 8 + d2)
        = d0 * 2 ^ 24 + d1 * 2 ^ 16 + d2 * 2 ^ 8 := by ring
    rw [hmul] at this
    exact this
  rw [e1, e2, e3]

theorem readBE32_be32 (n : Nat) (rest : List Nat) (h : n < 2 ^ 32) :
    readBE32 (be32 n ++ rest) 0 = n := by
  show readBE32 (n / 2 ^ 24 % 256 :: n / 2 ^ 16 % 256 :: n / 2 ^ 8 % 256 :: n % 256 :: rest) 0 = n
  rw [readBE32_bytes _ _ _ _ rest (Nat.mod_lt _ (by norm_num)) (Nat.mod_lt _ (by norm_num))
    (Nat.mod_lt _ (by norm_num)) (Nat.mod_lt _ (by norm_num))]
  omega

theorem readLE32_le32 (p : Nat) (h : p < 2 ^ 32) : readLE32 (le32 p) 0 = p := by
  show p % 256 + p / 2 ^ 8 % 256 * 2 ^ 8 + p / 2 ^ 16 % 256 * 2 ^ 16
      + p / 2 ^ 24 % 256 * 2 ^ 24 = p
  omega

/-! ## Structure of the packing loop -/

theorem baseToBits_lt (c : Nat) : baseToBits c < 4 := by
  unfold baseToBits
  split_ifs <;> norm_num

/-- The value of packed byte `j` after the first `n` iterations of the
packing loop: the 2-bit codes of `data[4j] … data[4j+3]` (those with index
below `n`) at bit offsets 6, 4, 2, 0. -/
def groupValN (data : List Nat) (n j : Nat) : Nat :=
  (if 4 * j < n then 64 * baseToBits (data.getD (4 * j) 0) else 0) +
  (if 4 * j + 1 < n then 16 * baseToBits (data.getD (4 * j + 1) 0) else 0) +
  (if 4 * j + 2 < n then 4 * baseToBits (data.getD (4 * j + 2) 0) else 0) +
  (if 4 * j + 3 < n then baseToBits (data.getD (4 * j + 3) 0) else 0)

theorem groupValN_zero (data : List Nat) (j : Nat) : groupValN data 0 j = 0 := by
  simp [groupValN]

theorem groupValN_succ_ne (data : List Nat) (n j : Nat) (hj : j ≠ n / 4) :
    groupValN data (n + 1) j = groupValN data n j := by
  unfold groupValN
  have h0 : (4 * j < n + 1) = (4 * j < n) := by
    by_cases h : 4 * j = n
    · exact absurd (by omega : j = n / 4) hj
    · simp only [eq_iff_iff]; omega
  have h1 : (4 * j + 1 < n + 1) = (4 * j + 1 < n) := by
    by_cases h : 4 * j + 1 = n
    · exact absurd (by omega : j = n / 4) hj
    · simp only [eq_iff_iff]; omega
  have h2 : (4 * j + 2 < n + 1) = (4 * j + 2 < n) := by
    by_cases h : 4 * j + 2 = n
    · exact absurd (by omega : j = n / 4) hj
    · simp only [eq_iff_iff]; omega
  have h3 : (4 * j + 3 < n + 1) = (4 * j + 3 < n) := by
    by_cases h : 4 * j + 3 = n
    · exact absurd (by omega : j = n / 4) hj
    · simp only [eq_iff_iff]; omega
  simp only [h0, h1, h2, h3]

theorem or_slot0 : ∀ v : Fin 4,
    (0 + 0 + 0 + 0 : Nat) ||| v.val <<< ((3 - 0) * 2) = 64 * v.val + 0 + 0 + 0 := by decide

theorem or_slot1 : ∀ a v : Fin 4,
    64 * a.val + 0 + 0 + 0 ||| v.val <<< ((3 - 1) * 2)
      = 64 * a.val + 16 * v.val + 0 + 0 := by decide

theorem or_slot2 : ∀ a b v : Fin 4,
    64 * a.val + 16 * b.val + 0 + 0 ||| v.val <<< ((3 - 2) * 2)
      = 64 * a.val + 16 * b.val + 4 * v.val + 0 := by decide

theorem or_slot3 : ∀ a b c v : Fin 4,
    64 * a.val + 16 * b.val + 4 * c.val + 0 ||| v.val <<< ((3 - 3) * 2)
      = 64 * a.val + 16 * b.val + 4 * c.val + v.val := by decide

/-- Reading a 2-bit slot back out of a packed byte. -/
theorem extract_slot : ∀ (a b c d t : Fin 4),
    (64 * a.val + 16 * b.val + 4 * c.val + d.val) >>> ((3 - t.val) * 2) &&& 3
      = [a.val, b.val, c.val, d.val].getD t.val 0 := by decide

/-- Adding iteration `n` to its own byte: the bitwise-or of the loop equals
addition, because slot `n % 4` of byte `n / 4` is still zero. -/
theorem groupValN_succ_self (data : List Nat) (n : Nat) :
    groupValN data n (n / 4) ||| baseToBits (data.getD n 0) <<< ((3 - n % 4) * 2)
      = groupValN data (n + 1) (n / 4) := by
  have hb := baseToBits_lt (data.getD n 0)
  have hb0 := baseToBits_lt (data.getD (4 * (n / 4)) 0)
  have hb1 := baseToBits_lt (data.getD (4 * (n / 4) + 1) 0)
  have hb2 := baseToBits_lt (data.getD (4 * (n / 4) + 2) 0)
  rcases (by omega : n % 4 = 0 ∨ n % 4 = 1 ∨ n % 4 = 2 ∨ n % 4 = 3) with hr | hr | hr | hr
  · unfold groupValN
    rw [hr, (by omega : 4 * (n / 4) = n),
      if_neg (by omega : ¬ (n < n)), if_pos (by omega : n < n + 1),
      if_neg (by omega : ¬ (n + 1 < n)), if_neg (by omega : ¬ (n + 1 < n + 1)),
      if_neg (by omega : ¬ (n + 2 < n)), if_neg (by omega : ¬ (n + 2 < n + 1)),
      if_neg (by omega : ¬ (n + 3 < n)), if_neg (by omega : ¬ (n + 3 < n + 1))]
    exact or_slot0 ⟨_, hb⟩
  · unfold groupValN
    rw [hr, (by omega : 4 * (n / 4) + 1 = n),
      if_pos (by omega : 4 * (n / 4) < n), if_pos (by omega : 4 * (n / 4) < n + 1),
      if_neg (by omega : ¬ (n < n)), if_pos (by omega : n < n + 1),
      if_neg (by omega : ¬ (4 * (n / 4) + 2 < n)),
      if_neg (by omega : ¬ (4 * (n / 4) + 2 < n + 1)),
      if_neg (by omega : ¬ (4 * (n / 4) + 3 < n)),
      if_neg (by omega : ¬ (4 * (n / 4) + 3 < n + 1))]
    exact or_slot1 ⟨_, hb0⟩ ⟨_, hb⟩
  · unfold groupValN
    rw [hr, (by omega : 4 * (n / 4) + 2 = n),
      if_pos (by omega : 4 * (n / 4) < n), if_pos (by omega : 4 * (n / 4) < n + 1),
      if_pos (by omega : 4 * (n / 4) + 1 < n), if_pos (by omega : 4 * (n / 4) + 1 < n + 1),
      if_neg (by omega : ¬ (n < n)), if_pos (by omega : n < n + 1),
      if_neg (by omega : ¬ (4 * (n / 4) + 3 < n)),
      if_neg (by omega : ¬ (4 * (n / 4) + 3 < n + 1))]
    exact or_slot2 ⟨_, hb0⟩ ⟨_, hb1⟩ ⟨_, hb⟩
  · unfold groupValN
    rw [hr, (by omega : 4 * (n / 4) + 3 = n),
      if_pos (by omega : 4 * (n / 4) < n), if_pos (by omega : 4 * (n / 4) < n + 1),
      if_pos (by omega : 4 * (n / 4) + 1 < n), if_pos (by omega : 4 * (n / 4) + 1 < n + 1),
      if_pos (by omega : 4 * (n / 4) + 2 < n), if_pos (by omega : 4 * (n / 4) + 2 < n + 1),
      if_neg (by omega : ¬ (n < n)), if_pos (by omega : n < n + 1)]
    exact or_slot3 ⟨_, hb0⟩ ⟨_, hb1⟩ ⟨_, hb2⟩ ⟨_, hb⟩

/-- Characterization of the packing loop: starting from a zeroed packed
region preceded by an 8-byte header, `n ≤ 4·ps` iterations produce the
per-byte group values. -/
theorem packFold_spec (data : List Nat) (ps : Nat) (hdr : List Nat) (h8 : hdr.length = 8) :
    ∀ n, n ≤ 4 * ps →
      (List.range n).foldl (packStep data) (hdr ++ List.replicate ps 0)
        = hdr ++ (List.range ps).map (groupValN data n) := by
  intro n
  induction n with
  | zero =>
    intro _
    have : (List.range ps).map (groupValN data 0) = List.replicate ps 0 := by
      apply List.ext_getElem
      · simp
      · intro j h1 h2
        simp [groupValN_zero]
    simp [this]
  | succ n ih =>
    intro h
    have hq : n / 4 < ps := by omega
    rw [List.range_succ, List.foldl_concat, ih (by omega)]
    unfold packStep
    rw [List.getD_append_right _ _ _ _ (by omega : hdr.length ≤ 8 + n / 4),
        List.set_append_right _ _ (by omega : hdr.length ≤ 8 + n / 4), h8]
    have harith : 8 + n / 4 - 8 = n / 4 := by omega
    rw [harith]
    have hget : ((List.range ps).map (groupValN data n)).getD (n / 4) 0
        = groupValN data n (n / 4) := by
      rw [List.getD_eq_getElem _ _ (by simpa using hq)]
      simp
    rw [hget, groupValN_succ_self]
    congr 1
    apply List.ext_getElem
    · simp
    · intro j h1 h2
      simp only [List.getElem_set, List.getElem_map, List.getElem_range]
    -- at this point each entry is `if n / 4 = j then … else groupValN data n j`
      by_cases hj : n / 4 = j
      · subst hj
        simp
      · rw [if_neg hj, groupValN_succ_ne data n j (by omega)]

/-! ## Layout of the nucleotide encoding -/

/-- Structural form of `encode_nucleotide` for strings below the `uint32`
limit: the two big-endian headers, the packed bytes, then the
little-endian `N` positions. -/
theorem encode_nucleotide_eq (s : List Nat) (hlen : s.length < 2 ^ 32) :
    encode_nucleotide s
      = (be32 s.length ++ be32 (nPositions s).length)
        ++ (List.range ((s.length + 3) / 4)).map (groupValN s s.length)
        ++ ((nPositions s).map le32).flatten := by
  unfold encode_nucleotide
  simp only [Nat.mod_eq_of_lt hlen, List.take_length]
  rw [packFold_spec s ((s.length + 3) / 4) _ (by simp [be32]) s.length (by omega)]

theorem length_nPositions_le (s : List Nat) : (nPositions s).length ≤ s.length := by
  have := List.length_filter_le
    (fun i => decide (toupperB (s.getD i 0) = 78)) (List.range s.length)
  simpa [nPositions] using this

theorem mem_nPositions (s : List Nat) (i : Nat) :
    i ∈ nPositions s ↔ i < s.length ∧ toupperB (s.getD i 0) = 78 := by
  simp [nPositions, List.mem_filter, List.mem_range]

theorem nPositions_sorted (s : List Nat) :
    List.Pairwise (· < ·) (nPositions s) :=
  List.Pairwise.sublist (List.filter_sublist _) (List.pairwise_lt_range _)

/-- The number of recorded `N` positions equals the number of `N`/`n`
letters of the string. -/
theorem length_nPositions_eq_count (s : List Nat) :
    (nPositions s).length = (s.filter (fun c => toupperB c = 78)).length := by
  induction s using List.reverseRecOn with
  | nil => rfl
  | append_singleton t a ih =>
    unfold nPositions
    rw [List.length_append, List.length_singleton, List.range_succ, List.filter_append,
      List.filter_append]
    have h1 : (List.range t.length).filter
          (fun i => decide (toupperB ((t ++ [a]).getD i 0) = 78))
        = (List.range t.length).filter (fun i => decide (toupperB (t.getD i 0) = 78)) := by
      apply List.filter_congr
      intro i hi
      rw [List.getD_append _ _ _ _ (List.mem_range.mp hi)]
    have h2 : (t ++ [a]).getD t.length 0 = a := by
      rw [List.getD_append_right _ _ _ _ (Nat.le_refl _)]
      simp
    rw [h1, List.length_append]
    unfold nPositions at ih
    rw [ih]
    by_cases ha : toupperB a = 78
    · simp [h2, ha]
    · simp [h2, ha]

/-- Reading a big-endian `uint32` past a prefix. -/
theorem readBE32_append (l m : List Nat) (t : Nat) :
    readBE32 (l ++ m) (l.length + t) = readBE32 m t := by
  unfold readBE32
  rw [List.getD_append_right _ _ _ _ (by omega),
      List.getD_append_right _ _ _ _ (by omega),
      List.getD_append_right _ _ _ _ (by omega),
      List.getD_append_right _ _ _ _ (by omega)]
  have e0 : l.length + t - l.length = t := by omega
  have e1 : l.length + t + 1 - l.length = t + 1 := by omega
  have e2 : l.length + t + 2 - l.length = t + 2 := by omega
  have e3 : l.length + t + 3 - l.length = t + 3 := by omega
  rw [e0, e1, e2, e3]

/-- Reading a little-endian `uint32` past a prefix. -/
theorem readLE32_append (l m : List Nat) (t : Nat) :
    readLE32 (l ++ m) (l.length + t) = readLE32 m t := by
  unfold readLE32
  rw [List.getD_append_right _ _ _ _ (by omega),
      List.getD_append_right _ _ _ _ (by omega),
      List.getD_append_right _ _ _ _ (by omega),
      List.getD_append_right _ _ _ _ (by omega)]
  have e0 : l.length + t - l.length = t := by omega
  have e1 : l.length + t + 1 - l.length = t + 1 := by omega
  have e2 : l.length + t + 2 - l.length = t + 2 := by omega
  have e3 : l.length + t + 3 - l.length = t + 3 := by omega
  rw [e0, e1, e2, e3]

/-- Reading back the `j`-th little-endian `uint32` from the flattened
`N`-position table. -/
theorem readLE32_flatten (ns : List Nat) (hns : ∀ p ∈ ns, p < 2 ^ 32) :
    ∀ j, j < ns.length → readLE32 ((ns.map le32).flatten) (4 * j) = ns.getD j 0 := by
  induction ns with
  | nil => intro j hj; exact absurd hj (by simp)
  | cons n rest ih =>
    have hlen4 : (le32 n).length = 4 := rfl
    intro j hj
    cases j with
    | zero =>
      rw [List.map_cons, List.flatten_cons, Nat.mul_zero]
      have h4 : ∀ r : Nat, r < 4 →
          (le32 n ++ (rest.map le32).flatten).getD r 0 = (le32 n).getD r 0 := by
        intro r hr
        exact List.getD_append _ _ _ _ (by omega)
      show readLE32 (le32 n ++ (rest.map le32).flatten) 0 = n
      unfold readLE32
      rw [h4 0 (by norm_num), h4 1 (by norm_num), h4 2 (by norm_num), h4 3 (by norm_num)]
      have := readLE32_le32 n (hns n (by simp))
      unfold readLE32 at this
      simpa using this
    | succ j =>
      rw [List.map_cons, List.flatten_cons]
      have he : 4 * (j + 1) = (le32 n).length + 4 * j := by rw [hlen4]; omega
      rw [he, readLE32_append, List.getD_cons_succ]
      exact ih (fun p hp => hns p (by simp [hp])) j (by simp at hj; omega)

/-- The effect of the `N`-overwrite loop of `decode_nucleotide`. -/
theorem overwrite_getD (ps0 : List Nat) :
    ∀ (body : List Nat) (i : Nat),
      (ps0.foldl (fun acc pos => if pos < acc.length then acc.set pos 78 else acc) body).getD i 0
        = if i ∈ ps0 ∧ i < body.length then 78 else body.getD i 0 := by
  induction ps0 with
  | nil => intro body i; simp
  | cons p rest ih =>
    intro body i
    show (rest.foldl _ (if p < body.length then body.set p 78 else body)).getD i 0 = _
    by_cases hp : p < body.length
    · rw [if_pos hp, ih]
      rw [List.length_set]
      by_cases hmem : i ∈ rest ∧ i < body.length
      · rw [if_pos hmem, if_pos ⟨by simp [hmem.1], hmem.2⟩]
      · rw [if_neg hmem]
        by_cases hi : i < body.length
        · by_cases hip : i = p
          · subst hip
            rw [if_pos ⟨by simp, hi⟩, List.getD_eq_getElem _ _ (by simpa using hi),
              List.getElem_set, if_pos rfl]
          · have : ¬ (i ∈ p :: rest ∧ i < body.length) := by
              intro hc
              rcases List.mem_cons.mp hc.1 with h | h
              · exact hip h
              · exact hmem ⟨h, hc.2⟩
            rw [if_neg this, List.getD_eq_getElem _ _ (by simpa using hi),
              List.getD_eq_getElem _ _ hi, List.getElem_set,
              if_neg (fun hpe => hip hpe.symm)]
        · rw [if_neg (fun hc => hi hc.2)]
          rw [List.getD_eq_getElem?_getD, List.getD_eq_getElem?_getD]
          rw [List.getElem?_eq_none (by simpa using hi), List.getElem?_eq_none (by omega)]
    · rw [if_neg hp, ih]
      by_cases hmem : i ∈ rest ∧ i < body.length
      · rw [if_pos hmem, if_pos ⟨by simp [hmem.1], hmem.2⟩]
      · rw [if_neg hmem]
        have : ¬ (i ∈ p :: rest ∧ i < body.length) := by
          intro hc
          rcases List.mem_cons.mp hc.1 with h | h
          · subst h; omega
          · exact hmem ⟨h, hc.2⟩
        rw [if_neg this]

theorem overwrite_length (ps0 : List Nat) :
    ∀ body : List Nat,
      (ps0.foldl (fun acc pos => if pos < acc.length then acc.set pos 78 else acc) body).length
        = body.length := by
  induction ps0 with
  | nil => intro body; rfl
  | cons p rest ih =>
    intro body
    show (rest.foldl _ (if p < body.length then body.set p 78 else body)).length = _
    by_cases hp : p < body.length
    · rw [if_pos hp, ih, List.length_set]
    · rw [if_neg hp, ih]

theorem flatten_le32_length (ns : List Nat) :
    ((ns.map le32).flatten).length = 4 * ns.length := by
  induction ns with
  | nil => rfl
  | cons n rest ih =>
    rw [List.map_cons, List.flatten_cons, List.length_append, ih]
    show 4 + 4 * rest.length = 4 * (rest.length + 1)
    omega

theorem encode_nucleotide_length (s : List Nat) (hlen : s.length < 2 ^ 32) :
    (encode_nucleotide s).length
      = 8 + (s.length + 3) / 4 + 4 * (nPositions s).length := by
  rw [encode_nucleotide_eq s hlen]
  simp only [List.length_append, flatten_le32_length, List.length_map, List.length_range]
  simp [be32]

/-- `extract_slot` restated over `Nat`. -/
theorem extract_slot_nat (b0 b1 b2 b3 r : Nat)
    (h0 : b0 < 4) (h1 : b1 < 4) (h2 : b2 < 4) (h3 : b3 < 4) (hr : r < 4) :
    (64 * b0 + 16 * b1 + 4 * b2 + b3) >>> ((3 - r) * 2) &&& 3
      = [b0, b1, b2, b3].getD r 0 :=
  extract_slot ⟨b0, h0⟩ ⟨b1, h1⟩ ⟨b2, h2⟩ ⟨b3, h3⟩ ⟨r, hr⟩

/-- Extracting base `i` back out of its packed byte. -/
theorem groupVal_extract (s : List Nat) (i : Nat) (hi : i < s.length) :
    groupValN s s.length (i / 4) >>> ((3 - i % 4) * 2) &&& 3
      = baseToBits (s.getD i 0) := by
  have dist : ∀ (c : Prop) [Decidable c] (a x : Nat),
      (if c then a * x else 0) = a * (if c then x else 0) := by
    intro c _ a x
    split <;> simp
  have hgv : groupValN s s.length (i / 4)
      = 64 * (if 4 * (i / 4) < s.length then baseToBits (s.getD (4 * (i / 4)) 0) else 0)
        + 16 * (if 4 * (i / 4) + 1 < s.length then baseToBits (s.getD (4 * (i / 4) + 1) 0) else 0)
        + 4 * (if 4 * (i / 4) + 2 < s.length then baseToBits (s.getD (4 * (i / 4) + 2) 0) else 0)
        + (if 4 * (i / 4) + 3 < s.length then baseToBits (s.getD (4 * (i / 4) + 3) 0) else 0) := by
    unfold groupValN
    rw [dist, dist, dist]
  have hB : ∀ (c : Prop) [Decidable c] (x : Nat),
      (if c then baseToBits (s.getD x 0) else 0) < 4 := by
    intro c _ x
    split
    · exact baseToBits_lt _
    · norm_num
  rw [hgv, extract_slot_nat _ _ _ _ _
    (hB (4 * (i / 4) < s.length) (4 * (i / 4)))
    (hB (4 * (i / 4) + 1 < s.length) (4 * (i / 4) + 1))
    (hB (4 * (i / 4) + 2 < s.length) (4 * (i / 4) + 2))
    (hB (4 * (i / 4) + 3 < s.length) (4 * (i / 4) + 3))
    (by omega : i % 4 < 4)]
  rcases (by omega : i % 4 = 0 ∨ i % 4 = 1 ∨ i % 4 = 2 ∨ i % 4 = 3) with hr | hr | hr | hr
  all_goals rw [hr]
  · show (if 4 * (i / 4) < s.length then baseToBits (s.getD (4 * (i / 4)) 0) else 0) = _
    rw [(by omega : 4 * (i / 4) = i), if_pos hi]
  · show (if 4 * (i / 4) + 1 < s.length then baseToBits (s.getD (4 * (i / 4) + 1) 0) else 0) = _
    rw [(by omega : 4 * (i / 4) + 1 = i), if_pos hi]
  · show (if 4 * (i / 4) + 2 < s.length then baseToBits (s.getD (4 * (i / 4) + 2) 0) else 0) = _
    rw [(by omega : 4 * (i / 4) + 2 = i), if_pos hi]
  · show (if 4 * (i / 4) + 3 < s.length then baseToBits (s.getD (4 * (i / 4) + 3) 0) else 0) = _
    rw [(by omega : 4 * (i / 4) + 3 = i), if_pos hi]

theorem ext_getD (l1 l2 : List Nat) (hl : l1.length = l2.length)
    (h : ∀ i, i < l1.length → l1.getD i 0 = l2.getD i 0) : l1 = l2 := by
  apply List.ext_getElem hl
  intro i h1 h2
  rw [← List.getD_eq_getElem l1 0 h1, ← List.getD_eq_getElem l2 0 h2]
  exact h i h1

theorem getD_map_lt (g : Nat → Nat) (s : List Nat) (i : Nat) (hi : i < s.length) :
    (s.map g).getD i 0 = g (s.getD i 0) := by
  rw [List.getD_eq_getElem _ _ (by simpa using hi), List.getElem_map,
    List.getD_eq_getElem _ _ hi]

theorem map_range_getD (s : List Nat) (g : Nat → Nat) :
    (List.range s.length).map (fun i => g (s.getD i 0)) = s.map g := by
  apply List.ext_getElem
  · simp
  · intro i h1 h2
    simp only [List.getElem_map, List.getElem_range]
    rw [List.getD_eq_getElem _ _ (by simpa using h1)]

/-- Reading the two big-endian headers back. -/
theorem readBE32_encode_nucleotide (s : List Nat) (hlen : s.length < 2 ^ 32) :
    readBE32 (encode_nucleotide s) 0 = s.length
      ∧ readBE32 (encode_nucleotide s) 4 = (nPositions s).length := by
  rw [encode_nucleotide_eq s hlen]
  have hk : (nPositions s).length < 2 ^ 32 :=
    lt_of_le_of_lt (length_nPositions_le s) hlen
  constructor
  · rw [List.append_assoc, List.append_assoc, readBE32_be32 _ _ hlen]
  · rw [List.append_assoc, List.append_assoc]
    have h4 : (4 : Nat) = (be32 s.length).length + 0 := by simp [be32]
    rw [h4, readBE32_append, readBE32_be32 _ _ hk]

/-- Reading packed byte `i / 4` back. -/
theorem getD_encode_nucleotide_packed (s : List Nat) (hlen : s.length < 2 ^ 32)
    (i : Nat) (hi : i < s.length) :
    (encode_nucleotide s).getD (8 + i / 4) 0 = groupValN s s.length (i / 4) := by
  rw [encode_nucleotide_eq s hlen]
  have hhdr : (be32 s.length ++ be32 (nPositions s).length).length = 8 := by simp [be32]
  have hq : i / 4 < (s.length + 3) / 4 := by omega
  rw [List.append_assoc (be32 s.length ++ be32 (nPositions s).length)]
  rw [List.getD_append_right _ _ _ _ (by omega), hhdr]
  rw [(by omega : 8 + i / 4 - 8 = i / 4)]
  rw [List.getD_append _ _ _ _ (by simpa using hq)]
  rw [List.getD_eq_getElem _ _ (by simpa using hq)]
  simp

/-- Reading the `N`-position table back. -/
theorem read_npos_encode_nucleotide (s : List Nat) (hlen : s.length < 2 ^ 32) :
    (List.range (nPositions s).length).map
        (fun j => readLE32 (encode_nucleotide s) (8 + (s.length + 3) / 4 + 4 * j))
      = nPositions s := by
  apply List.ext_getElem
  · simp
  · intro j h1 h2
    simp only [List.getElem_map, List.getElem_range]
    rw [encode_nucleotide_eq s hlen]
    have hhdr : (be32 s.length ++ be32 (nPositions s).length).length = 8 := by simp [be32]
    have hmapl : ((List.range ((s.length + 3) / 4)).map (groupValN s s.length)).length
        = (s.length + 3) / 4 := by simp
    have hj : j < (nPositions s).length := by simpa using h1
    rw [List.append_assoc (be32 s.length ++ be32 (nPositions s).length)]
    rw [(by omega : 8 + (s.length + 3) / 4 + 4 * j
        = (be32 s.length ++ be32 (nPositions s).length).length + ((s.length + 3) / 4 + 4 * j))]
    rw [readLE32_append]
    rw [(by omega : (s.length + 3) / 4 + 4 * j
        = ((List.range ((s.length + 3) / 4)).map (groupValN s s.length)).length + 4 * j)]
    rw [readLE32_append]
    rw [readLE32_flatten (nPositions s)
      (fun p hp => lt_of_lt_of_le ((mem_nPositions s p).mp hp).1 (Nat.le_of_lt hlen)) j hj]
    exact List.getD_eq_getElem _ _ hj

/-- What the nucleotide codec round-trips to, for arbitrary byte strings
below the `uint32` limit: every position whose upper-cased byte is `N`
comes back as `N`; every other byte comes back as
`bitsToBase (baseToBits c)`. -/
theorem decode_encode_nucleotide (s : List Nat) (hlen : s.length < 2 ^ 32) :
    decode_nucleotide (encode_nucleotide s)
      = s.map (fun c => if toupperB c = 78 then 78 else bitsToBase (baseToBits c)) := by
  have hlenE := encode_nucleotide_length s hlen
  have hBE := readBE32_encode_nucleotide s hlen
  unfold decode_nucleotide
  rw [if_neg (by omega : ¬ (encode_nucleotide s).length < 8)]
  simp only [hBE.1, hBE.2]
  have hbody : (List.range s.length).map (fun i =>
        bitsToBase ((encode_nucleotide s).getD (8 + i / 4) 0 >>> ((3 - i % 4) * 2) &&& 3))
      = s.map (fun c => bitsToBase (baseToBits c)) := by
    rw [← map_range_getD s (fun c => bitsToBase (baseToBits c))]
    apply List.map_congr_left
    intro i hi
    rw [getD_encode_nucleotide_packed s hlen i (List.mem_range.mp hi),
      groupVal_extract s i (List.mem_range.mp hi)]
  rw [hbody, read_npos_encode_nucleotide s hlen]
  by_cases hk0 : 0 < (nPositions s).length
  · rw [if_pos hk0]
    apply ext_getD
    · rw [overwrite_length]
      simp
    · intro i hi
      rw [overwrite_length, List.length_map] at hi
      rw [overwrite_getD, getD_map_lt _ _ _ hi, getD_map_lt _ _ _ hi]
      by_cases hN : toupperB (s.getD i 0) = 78
      · rw [if_pos ⟨(mem_nPositions s i).mpr ⟨hi, hN⟩, by simpa using hi⟩, if_pos hN]
      · rw [if_neg (fun hc => hN ((mem_nPositions s i).mp hc.1).2), if_neg hN]
  · rw [if_neg hk0]
    have hempty : nPositions s = [] := List.eq_nil_of_length_eq_zero (by omega)
    apply ext_getD
    · simp
    · intro i hi
      rw [List.length_map] at hi
      rw [getD_map_lt _ _ _ hi, getD_map_lt _ _ _ hi]
      have hN : ¬ toupperB (s.getD i 0) = 78 := by
        intro h78
        have hmem := (mem_nPositions s i).mpr ⟨hi, h78⟩
        rw [hempty] at hmem
        simp at hmem
      rw [if_neg hN]

/-! ## Claim C1 — Generic-hint round-trip on the nucleotide alphabet -/

theorem isNucleotideSequence_of_alphabet (s : List Nat) (hne : s ≠ [])
    (halpha : ∀ c ∈ s, c = 65 ∨ c = 67 ∨ c = 71 ∨ c = 84 ∨ c = 85 ∨ c = 78 ∨
      c = 97 ∨ c = 99 ∨ c = 103 ∨ c = 116 ∨ c = 117 ∨ c = 110) :
    isNucleotideSequence s = true := by
  have h1 : s.filter isalphaB = s := List.filter_eq_self.mpr (fun c hc => by
    rcases halpha c hc with rfl | rfl | rfl | rfl | rfl | rfl | rfl | rfl | rfl | rfl | rfl | rfl
      <;> decide)
  have h2 : s.filter (fun c => isalphaB c && isNucByte c) = s :=
    List.filter_eq_self.mpr (fun c hc => by
      rcases halpha c hc with rfl | rfl | rfl | rfl | rfl | rfl | rfl | rfl | rfl | rfl | rfl | rfl
        <;> decide)
  unfold isNucleotideSequence
  rw [if_neg hne, h1, h2]
  have hpos : 0 < s.length := List.length_pos.mpr hne
  simp only [Bool.and_eq_true, decide_eq_true_eq]
  omega

/-- C1: for every string over `{A,C,G,T,U,N}` in either case (and below the
`uint32` length limit), decoding the Generic-hint encoding returns the
string uppercased with `U`/`u` replaced by `T` and every `N` position
preserved; in particular an uppercase string over `{A,C,G,T,N}`
round-trips exactly. -/
theorem generic_roundtrip_nucleotide (s : List Nat) (hlen : s.length < 2 ^ 32)
    (halpha : ∀ c ∈ s, c = 65 ∨ c = 67 ∨ c = 71 ∨ c = 84 ∨ c = 85 ∨ c = 78 ∨
      c = 97 ∨ c = 99 ∨ c = 103 ∨ c = 116 ∨ c = 117 ∨ c = 110) :
    decode (encode s .Generic)
        = s.map (fun c => if toupperB c = 85 then 84 else toupperB c)
    ∧ ((∀ c ∈ s, c = 65 ∨ c = 67 ∨ c = 71 ∨ c = 84 ∨ c = 78) →
        decode (encode s .Generic) = s) := by
  have hmain : decode (encode s .Generic)
      = s.map (fun c => if toupperB c = 85 then 84 else toupperB c) := by
    rcases s with _ | ⟨c, rest⟩
    · rfl
    · have hne : (c :: rest) ≠ ([] : List Nat) := by simp
      have hnuc := isNucleotideSequence_of_alphabet (c :: rest) hne halpha
      rw [encode, if_neg hne, if_neg (by decide : ¬ (DataTypeHint.Generic = .QualityScore)),
        if_pos hnuc]
      show decode_nucleotide (encode_nucleotide (c :: rest)) = _
      rw [decode_encode_nucleotide (c :: rest) hlen]
      apply List.map_congr_left
      intro x hx
      rcases halpha x hx with rfl | rfl | rfl | rfl | rfl | rfl | rfl | rfl | rfl | rfl | rfl | rfl
        <;> decide
  refine ⟨hmain, fun hup => ?_⟩
  rw [hmain]
  have hid : s.map (fun c => if toupperB c = 85 then 84 else toupperB c) = s.map id := by
    apply List.map_congr_left
    intro x hx
    rcases hup x hx with rfl | rfl | rfl | rfl | rfl <;> decide
  rw [hid, List.map_id]

/-- Witness for C1: `"GatTacaNUu"` decodes to `"GATTACANTT"`, and the
uppercase DNA string `"GATTACA"` round-trips exactly. -/
theorem generic_roundtrip_nucleotide_witness :
    decode (encode [71, 97, 116, 84, 97, 99, 97, 78, 85, 117] .Generic)
        = [71, 65, 84, 84, 65, 67, 65, 78, 84, 84]
    ∧ decode (encode [71, 65, 84, 84, 65, 67, 65] .Generic)
        = [71, 65, 84, 84, 65, 67, 65] := by
  constructor
  · have h := (generic_roundtrip_nucleotide [71, 97, 116, 84, 97, 99, 97, 78, 85, 117]
      (by norm_num) (by decide)).1
    rw [h]
    decide
  · exact (generic_roundtrip_nucleotide [71, 65, 84, 84, 65, 67, 65]
      (by norm_num) (by decide)).2 (by decide)

/-! ## Claim C6 — exact layout of the nucleotide payload -/

theorem take4_be32 (n : Nat) (rest : List Nat) : (be32 n ++ rest).take 4 = be32 n := by
  simp [be32]

theorem drop4_be32 (n : Nat) (rest : List Nat) : (be32 n ++ rest).drop 4 = rest := by
  simp [be32]

/-- C6: the nucleotide payload of a string of length `L` with `k` occurrences
of `N`/`n` has exactly `8 + ⌈L/4⌉ + 4k` bytes: big-endian `L`, big-endian
`k`, `⌈L/4⌉` packed bytes with base `i` in the 2-bit slot at bit offset
`(3 - i mod 4)·2`, then the `k` little-endian 32-bit `N` positions in
ascending order. -/
theorem encode_nucleotide_layout (s : List Nat) (hlen : s.length < 2 ^ 32) :
    (encode_nucleotide s).length
        = 8 + (s.length + 3) / 4 + 4 * (s.filter (fun c => toupperB c = 78)).length
    ∧ (encode_nucleotide s).take 4 = be32 s.length
    ∧ ((encode_nucleotide s).drop 4).take 4
        = be32 ((s.filter (fun c => toupperB c = 78)).length)
    ∧ (∀ i, i < s.length →
        (encode_nucleotide s).getD (8 + i / 4) 0 >>> ((3 - i % 4) * 2) &&& 3
          = baseToBits (s.getD i 0))
    ∧ (encode_nucleotide s).drop (8 + (s.length + 3) / 4)
        = ((nPositions s).map le32).flatten
    ∧ List.Pairwise (· < ·) (nPositions s)
    ∧ (∀ p ∈ nPositions s, p < s.length ∧ toupperB (s.getD p 0) = 78) := by
  have hcount := length_nPositions_eq_count s
  refine ⟨?_, ?_, ?_, ?_, ?_, nPositions_sorted s, ?_⟩
  · rw [encode_nucleotide_length s hlen, hcount]
  · rw [encode_nucleotide_eq s hlen, List.append_assoc, List.append_assoc, take4_be32]
  · rw [encode_nucleotide_eq s hlen, List.append_assoc, List.append_assoc, drop4_be32,
      ← hcount, take4_be32]
  · intro i hi
    rw [getD_encode_nucleotide_packed s hlen i hi, groupVal_extract s i hi]
  · rw [encode_nucleotide_eq s hlen]
    apply List.drop_left'
    simp [be32]
    omega
  · intro p hp
    exact ((mem_nPositions s p).mp hp).imp_left id

/-- Witness for C6 at `"AcgTNn"`: length `8 + 2 + 4·2`, headers `6` and `2`,
and the position table `[4, 5]`. -/
theorem encode_nucleotide_layout_witness :
    (encode_nucleotide [65, 99, 103, 84, 78, 110]).length = 8 + 2 + 4 * 2
    ∧ (encode_nucleotide [65, 99, 103, 84, 78, 110]).take 4 = be32 6
    ∧ (encode_nucleotide [65, 99, 103, 84, 78, 110]).drop 10
        = [4, 0, 0, 0, 5, 0, 0, 0] := by
  have h := encode_nucleotide_layout [65, 99, 103, 84, 78, 110] (by norm_num)
  refine ⟨?_, ?_, ?_⟩
  · rw [h.1]
    decide
  · rw [h.2.1]
    decide
  · have h5 := h.2.2.2.2.1
    rw [(by decide : (8 + (([65, 99, 103, 84, 78, 110] : List Nat).length + 3) / 4) = 10)] at h5
    rw [h5]
    decide
/-! ## Format detection (`determine_format_from_cache`) and claim C10 -/

/-- `FileFormat` (SmartStrategy.h). -/
inductive FileFormat where
  | DNA_FASTA
  | RNA_FASTA
  | PROTEIN_FASTA
  | DNA_FASTQ
  | RNA_FASTQ
  | PROTEIN_FASTQ
deriving DecidableEq, Repr

/-- `SmartStrategy::determine_format_from_cache` (lines 705-724), given the
first stored record's sequence and quality (the function returns without
changing the format when the cache is empty; this models the non-empty
case).  `is_rna` is tested before `is_nuc` in the conditional chain. -/
def determine_format_from_cache (firstSeq firstQual : List Nat) : FileFormat :=
  let is_rna := hasRNA firstSeq
  let is_nuc := isNucleotideSequence firstSeq
  let is_fastq := firstQual ≠ []
  if ¬ is_fastq then
    if is_rna then .RNA_FASTA else if is_nuc then .DNA_FASTA else .PROTEIN_FASTA
  else
    if is_rna then .RNA_FASTQ else if is_nuc then .DNA_FASTQ else .PROTEIN_FASTQ

/-- C10: whenever the first record's sequence contains `U` or `u`, the
detected format is RNA (FASTA or FASTQ according to the record's quality),
regardless of the outcome of the `is_nucleotide` fraction test. -/
theorem determine_format_rna_precedence (firstSeq firstQual : List Nat)
    (hrna : hasRNA firstSeq = true) :
    determine_format_from_cache firstSeq firstQual
      = if firstQual = [] then .RNA_FASTA else .RNA_FASTQ := by
  unfold determine_format_from_cache
  by_cases hq : firstQual = []
  · simp [hq, hrna]
  · simp [hq, hrna]

/-- Witness for C10: `"UWWWWW"` fails the 0.80 nucleotide-fraction test
(1 of 6) yet is detected as RNA, not protein. -/
theorem determine_format_rna_precedence_witness :
    isNucleotideSequence [85, 87, 87, 87, 87, 87] = false
    ∧ determine_format_from_cache [85, 87, 87, 87, 87, 87] [] = .RNA_FASTA
    ∧ determine_format_from_cache [85, 87, 87, 87, 87, 87] [33] = .RNA_FASTQ := by
  refine ⟨by decide, ?_, ?_⟩
  · rw [determine_format_rna_precedence _ _ (by decide)]
    decide
  · rw [determine_format_rna_precedence _ _ (by decide)]
    decide

/-! ## The Cache store (`Cache.cpp`), claims C8 and C3 -/

/-- The variant stored in `Cache::m_store`: `FastaRecordData` (a byte
vector) or `FastqRecord` (two byte vectors). -/
inductive RecordVariant where
  | fasta (data : List Nat)
  | fastq (seq qual : List Nat)
deriving DecidableEq, Repr

/-- `Cache::m_store`, modelled as an association list (the
`unordered_map`'s iteration order is unspecified; the list order stands
for one such order). -/
abbrev Store := List (List Nat × RecordVariant)

/-- `m_store[key] = v`: replace the mapping if the key is present,
otherwise insert it. -/
def storeSet (st : Store) (k : List Nat) (v : RecordVariant) : Store :=
  if st.any (fun p => p.1 = k) then
    st.map (fun p => if p.1 = k then (k, v) else p)
  else st ++ [(k, v)]

/-- `m_store.find`-style lookup. -/
def storeLookup (st : Store) (k : List Nat) : Option RecordVariant :=
  (st.find? (fun p => p.1 = k)).map (fun p => p.2)

namespace Cache

/-- `Cache::set` (Cache.cpp lines 88-90): encode the value with the
default `Generic` hint and store it (the variant holds a
`FastaRecordData`). -/
def set (st : Store) (key value : List Nat) : Store :=
  storeSet st key (.fasta (encode value .Generic))

/-- `Cache::getStoredSize` (Cache.cpp lines 72-86): size of the encoded
payload(s); 0 for an absent key. -/
def getStoredSize (st : Store) (key : List Nat) : Nat :=
  match storeLookup st key with
  | some (.fasta data) => data.length
  | some (.fastq s q) => s.length + q.length
  | none => 0

end Cache

/-- C8 (amended): after `set("k","GATTACA")` on a fresh cache the stored
size is 11 bytes — 1 tag byte + 8 header bytes + 2 packed bytes — the
classifier having chosen the nucleotide path.  (The spec's table says 9,
which contradicts its own breakdown `1 + 8 + 2`.) -/
theorem stored_size_gattaca :
    Cache.getStoredSize (Cache.set [] [107] [71, 65, 84, 84, 65, 67, 65]) [107]
      = 11 := by decide

/-- Counterexample to C8 as stated: the stored size of `"GATTACA"` is not
9 bytes. -/
theorem stored_size_gattaca_not_nine :
    ¬ Cache.getStoredSize (Cache.set [] [107] [71, 65, 84, 84, 65, 67, 65]) [107]
      = 9 := by decide

/-! ## v1 "TRAC" snapshot (`Cache::save` / `Cache::restore`, first iteration) -/

/-- One record as written by `Cache::save` (Cache.cpp lines 155-176):
4-byte LE key length, key bytes, a record-type byte, then the
type-tagged payload(s), each with a 4-byte LE length.  Lengths are
`uint32`, so they are truncated modulo `2^32` and that many bytes are
written. -/
def encodeV1Record (k : List Nat) (v : RecordVariant) : List Nat :=
  le32 (k.length % 2 ^ 32) ++ k.take (k.length % 2 ^ 32) ++
    (match v with
     | .fasta d => 0 :: (le32 (d.length % 2 ^ 32) ++ d.take (d.length % 2 ^ 32))
     | .fastq sq ql =>
        1 :: (le32 (sq.length % 2 ^ 32) ++ sq.take (sq.length % 2 ^ 32) ++
          le32 (ql.length % 2 ^ 32) ++ ql.take (ql.length % 2 ^ 32)))

namespace Cache

/-- `Cache::save` (Cache.cpp lines 143-177), the `m_store` path taken when
the store is non-empty (a cache populated only via `set` has an empty
SmartStrategy file cache, so this is the whole behavior): magic `TRAC`,
version byte 2, the 8-byte LE record count, then the records in
iteration order. -/
def save (st : Store) : List Nat :=
  [84, 82, 65, 67] ++ [2] ++ le64 (st.length % 2 ^ 64) ++
    (st.map (fun p => encodeV1Record p.1 p.2)).flatten

end Cache

/-- The record-reading loop of `Cache::restore` (Cache.cpp lines 213-240):
read the LE key length, the key, the type byte; type 0 reads one length-
prefixed payload, type 1 reads two; any other type byte reads nothing
further.  The cursor semantics of the `ifstream` are modelled by passing
the remaining bytes. -/
def parseV1Records : Nat → List Nat → Store → Store
  | 0, _, st => st
  | n + 1, bytes, st =>
    let key_len := readLE32 bytes 0
    let key := (bytes.drop 4).take key_len
    let rec_type := bytes.getD (4 + key_len) 0
    if rec_type = 0 then
      let data_len := readLE32 bytes (5 + key_len)
      let data := (bytes.drop (9 + key_len)).take data_len
      parseV1Records n (bytes.drop (9 + key_len + data_len))
        (storeSet st key (.fasta data))
    else if rec_type = 1 then
      let seq_len := readLE32 bytes (5 + key_len)
      let sq := (bytes.drop (9 + key_len)).take seq_len
      let qual_len := readLE32 bytes (9 + key_len + seq_len)
      let ql := (bytes.drop (13 + key_len + seq_len)).take qual_len
      parseV1Records n (bytes.drop (13 + key_len + seq_len + qual_len))
        (storeSet st key (.fastq sq ql))
    else parseV1Records n (bytes.drop (5 + key_len)) st

/-- Which reader `Cache::restore` hands the file to. -/
inductive RestoreResult where
  | v1 (st : Store)
  | v2loadBinary
deriving DecidableEq, Repr

namespace Cache

/-- `Cache::restore` (Cache.cpp lines 186-248): read the first 4 bytes; a
short file or a non-`TRAC` magic delegates to `SmartStrategy::loadBinary`
(the v2 reader, which reopens the file from the start); on `TRAC` the
version byte must be 2 (otherwise the store is left unchanged), then the
store is cleared and the records are parsed. -/
def restore (prev : Store) (bytes : List Nat) : RestoreResult :=
  if bytes.length < 4 then .v2loadBinary
  else if bytes.take 4 = [84, 82, 65, 67] then
    if bytes.getD 4 0 ≠ 2 then .v1 prev
    else .v1 (parseV1Records (readLE64 bytes 5) (bytes.drop 13) [])
  else .v2loadBinary

end Cache

theorem readLE32_le32_append (p : Nat) (rest : List Nat) (h : p < 2 ^ 32) :
    readLE32 (le32 p ++ rest) 0 = p := by
  have hlen4 : (le32 p).length = 4 := rfl
  have h4 : ∀ r : Nat, r < 4 →
      (le32 p ++ rest).getD r 0 = (le32 p).getD r 0 := by
    intro r hr
    exact List.getD_append _ _ _ _ (by omega)
  unfold readLE32
  rw [h4 0 (by norm_num), h4 1 (by norm_num), h4 2 (by norm_num), h4 3 (by norm_num)]
  have := readLE32_le32 p h
  unfold readLE32 at this
  simpa using this

theorem readLE64_le64_append (p : Nat) (rest : List Nat) (h : p < 2 ^ 64) :
    readLE64 (le64 p ++ rest) 0 = p := by
  have hlen8 : (le64 p).length = 8 := rfl
  have h8 : ∀ r : Nat, r < 8 →
      (le64 p ++ rest).getD r 0 = (le64 p).getD r 0 := by
    intro r hr
    exact List.getD_append _ _ _ _ (by omega)
  unfold readLE64
  rw [h8 0 (by norm_num), h8 1 (by norm_num), h8 2 (by norm_num), h8 3 (by norm_num),
    h8 4 (by norm_num), h8 5 (by norm_num), h8 6 (by norm_num), h8 7 (by norm_num)]
  show p % 256 + p / 2 ^ 8 % 256 * 2 ^ 8 + p / 2 ^ 16 % 256 * 2 ^ 16
      + p / 2 ^ 24 % 256 * 2 ^ 24 + p / 2 ^ 32 % 256 * 2 ^ 32 + p / 2 ^ 40 % 256 * 2 ^ 40
      + p / 2 ^ 48 % 256 * 2 ^ 48 + p / 2 ^ 56 % 256 * 2 ^ 56 = p
  omega

theorem readLE64_append (l m : List Nat) (t : Nat) :
    readLE64 (l ++ m) (l.length + t) = readLE64 m t := by
  unfold readLE64
  rw [List.getD_append_right _ _ _ _ (by omega),
      List.getD_append_right _ _ _ _ (by omega),
      List.getD_append_right _ _ _ _ (by omega),
      List.getD_append_right _ _ _ _ (by omega),
      List.getD_append_right _ _ _ _ (by omega),
      List.getD_append_right _ _ _ _ (by omega),
      List.getD_append_right _ _ _ _ (by omega),
      List.getD_append_right _ _ _ _ (by omega)]
  have e0 : l.length + t - l.length = t := by omega
  have e1 : l.length + t + 1 - l.length = t + 1 := by omega
  have e2 : l.length + t + 2 - l.length = t + 2 := by omega
  have e3 : l.length + t + 3 - l.length = t + 3 := by omega
  have e4 : l.length + t + 4 - l.length = t + 4 := by omega
  have e5 : l.length + t + 5 - l.length = t + 5 := by omega
  have e6 : l.length + t + 6 - l.length = t + 6 := by omega
  have e7 : l.length + t + 7 - l.length = t + 7 := by omega
  rw [e0, e1, e2, e3, e4, e5, e6, e7]

theorem readLE32_cons (a : Nat) (m : List Nat) (t : Nat) :
    readLE32 (a :: m) (t + 1) = readLE32 m t := by
  unfold readLE32
  rw [(by omega : t + 1 + 1 = (t + 1) + 1), (by omega : t + 1 + 2 = (t + 2) + 1),
    (by omega : t + 1 + 3 = (t + 3) + 1)]
  rw [List.getD_cons_succ, List.getD_cons_succ, List.getD_cons_succ, List.getD_cons_succ]

/-- The parsing loop inverts the record serialization, for bounded records
with fresh, distinct keys. -/
theorem parseV1_serialized (records : List (List Nat × RecordVariant)) :
    ∀ acc : Store,
      (∀ p ∈ records, p.1.length < 2 ^ 32) →
      (∀ p ∈ records, ∃ d, p.2 = RecordVariant.fasta d ∧ d.length < 2 ^ 32) →
      (∀ p ∈ records, acc.any (fun q => q.1 = p.1) = false) →
      (records.map Prod.fst).Nodup →
      parseV1Records records.length
          ((records.map (fun p => encodeV1Record p.1 p.2)).flatten) acc
        = acc ++ records := by
  induction records with
  | nil => intro acc _ _ _ _; simp [parseV1Records]
  | cons rec0 rest ih =>
    intro acc hklen hvals hfresh hnodup
    obtain ⟨k, v⟩ := rec0
    obtain ⟨d, hv, hdlen⟩ := hvals (k, v) (by simp)
    simp only at hv
    subst hv
    have hklen0 : k.length < 2 ^ 32 := hklen (k, RecordVariant.fasta d) (by simp)
    have hkl : k.length % 2 ^ 32 = k.length := Nat.mod_eq_of_lt hklen0
    have hdl : d.length % 2 ^ 32 = d.length := Nat.mod_eq_of_lt hdlen
    have hbytes :
        ((((k, RecordVariant.fasta d) :: rest).map
            (fun p => encodeV1Record p.1 p.2)).flatten)
          = le32 k.length ++ (k ++ (0 :: (le32 d.length ++
              (d ++ ((rest.map (fun p => encodeV1Record p.1 p.2)).flatten))))) := by
      rw [List.map_cons, List.flatten_cons]
      show (le32 (k.length % 2 ^ 32) ++ k.take (k.length % 2 ^ 32) ++
          (0 :: (le32 (d.length % 2 ^ 32) ++ d.take (d.length % 2 ^ 32))))
          ++ ((rest.map (fun p => encodeV1Record p.1 p.2)).flatten) = _
      rw [hkl, hdl, List.take_length, List.take_length]
      simp [List.append_assoc]
    set F := (rest.map (fun p => encodeV1Record p.1 p.2)).flatten with hF
    set BYTES := (((k, RecordVariant.fasta d) :: rest).map
      (fun p => encodeV1Record p.1 p.2)).flatten with hBYTES
    have hkeylen : readLE32 BYTES 0 = k.length := by
      rw [hbytes]
      exact readLE32_le32_append _ _ hklen0
    have hkey : (BYTES.drop 4).take k.length = k := by
      rw [hbytes, List.drop_left' (by rfl : (le32 k.length).length = 4), List.take_left]
    have hrectype : BYTES.getD (4 + k.length) 0 = 0 := by
      rw [hbytes]
      rw [List.getD_append_right _ _ _ _ (by simp [le32] : (le32 k.length).length ≤ 4 + k.length)]
      rw [(by simp [le32] : 4 + k.length - (le32 k.length).length = k.length)]
      rw [List.getD_append_right _ _ _ _ (Nat.le_refl _), Nat.sub_self, List.getD_cons_zero]
    have hdatalen : readLE32 BYTES (5 + k.length) = d.length := by
      rw [hbytes,
        (by simp [le32] ; omega : 5 + k.length = (le32 k.length).length + (k.length + 1)),
        readLE32_append,
        (by rfl : k.length + 1 = k.length + 1), readLE32_append k _ 1, readLE32_cons]
      exact readLE32_le32_append _ _ hdlen
    have hdata : (BYTES.drop (9 + k.length)).take d.length = d := by
      have hb2 : BYTES = (le32 k.length ++ k ++ [0] ++ le32 d.length) ++ (d ++ F) := by
        rw [hbytes]
        simp [List.append_assoc]
      rw [hb2, List.drop_left' (by simp [le32]; omega), List.take_left]
    have hnext : BYTES.drop (9 + k.length + d.length) = F := by
      have hb3 : BYTES = (le32 k.length ++ k ++ [0] ++ le32 d.length ++ d) ++ F := by
        rw [hbytes]
        simp [List.append_assoc]
      rw [hb3, List.drop_left' (by simp [le32]; omega)]
    have hsetacc : storeSet acc k (.fasta d) = acc ++ [(k, .fasta d)] := by
      unfold storeSet
      rw [if_neg]
      rw [hfresh (k, RecordVariant.fasta d) (by simp)]
      simp
    have hkfresh : k ∉ rest.map Prod.fst := (List.nodup_cons.mp (by simpa using hnodup)).1
    rw [(by simp : ((k, RecordVariant.fasta d) :: rest).length = rest.length + 1)]
    show parseV1Records (rest.length + 1) BYTES acc = _
    rw [parseV1Records]
    simp only [hkeylen, hkey, hrectype, hdatalen, hdata, hnext, hsetacc, if_pos rfl]
    rw [ih (acc ++ [(k, RecordVariant.fasta d)])
      (fun p hp => hklen p (by simp [hp]))
      (fun p hp => hvals p (by simp [hp]))
      (fun p hp => by
        rw [List.any_append]
        rw [hfresh p (by simp [hp])]
        simp only [Bool.false_or, List.any_cons, List.any_nil, Bool.or_false]
        simp only [decide_eq_false_iff_not]
        intro hkp
        exact hkfresh (by
          rw [hkp]
          exact List.mem_map_of_mem Prod.fst hp))
      (List.nodup_cons.mp (by simpa using hnodup)).2]
    simp

/-- C3: for a cache populated only via `set` (every stored value is a
`Generic`-encoded FASTA payload), restoring the bytes written by `save`
rebuilds exactly the same store — hence the same mapping from id to
decoded record — and the restore dispatch selects the v1 reader precisely
when the first 4 bytes spell `TRAC`, delegating to the v2 reader
(`loadBinary`) otherwise. -/
theorem save_restore_v1 (st prev : Store)
    (hne : st ≠ [])
    (hkeys : (st.map Prod.fst).Nodup)
    (hklen : ∀ p ∈ st, p.1.length < 2 ^ 32)
    (hvals : ∀ p ∈ st, ∃ v, p.2 = RecordVariant.fasta (encode v .Generic)
      ∧ (encode v .Generic).length < 2 ^ 32)
    (hcount : st.length < 2 ^ 64) :
    (Cache.save st).take 4 = [84, 82, 65, 67]
    ∧ Cache.restore prev (Cache.save st) = .v1 st
    ∧ (∀ bs : List Nat, 4 ≤ bs.length → bs.take 4 ≠ [84, 82, 65, 67] →
        Cache.restore prev bs = .v2loadBinary) := by
  have htake : (Cache.save st).take 4 = [84, 82, 65, 67] := rfl
  refine ⟨htake, ?_, ?_⟩
  · have hlen : ¬ (Cache.save st).length < 4 := by
      simp [Cache.save]
    have hver : (Cache.save st).getD 4 0 = 2 := rfl
    have hcnt64 : readLE64 (Cache.save st) 5 = st.length := by
      have h3 : st.length % 2 ^ 64 = st.length := Nat.mod_eq_of_lt hcount
      show readLE64 (([84, 82, 65, 67, 2] : List Nat) ++ (le64 (st.length % 2 ^ 64)
        ++ (st.map (fun p => encodeV1Record p.1 p.2)).flatten)) 5 = st.length
      rw [h3]
      have h1 := readLE64_append [84, 82, 65, 67, 2]
        (le64 st.length ++ (st.map (fun p => encodeV1Record p.1 p.2)).flatten) 0
      rw [readLE64_le64_append st.length
        ((st.map (fun p => encodeV1Record p.1 p.2)).flatten) hcount] at h1
      simpa using h1
    have hdrop : (Cache.save st).drop 13
        = (st.map (fun p => encodeV1Record p.1 p.2)).flatten := rfl
    unfold Cache.restore
    rw [if_neg hlen, if_pos htake, hver, if_neg (by simp), hcnt64, hdrop]
    rw [parseV1_serialized st []
      hklen
      (fun p hp => by
        obtain ⟨v, hv, hvl⟩ := hvals p hp
        exact ⟨encode v .Generic, hv, hvl⟩)
      (fun p _ => rfl)
      hkeys]
    rfl
  · intro bs h4 hm
    unfold Cache.restore
    rw [if_neg (by omega), if_neg hm]

/-- Witness for C3: a two-record cache built by `set` round-trips through
`save`/`restore`, and the dispatch picks v1 on the `TRAC` magic. -/
theorem save_restore_v1_witness :
    Cache.restore []
        (Cache.save (Cache.set (Cache.set [] [107, 49] [71, 65, 84, 84, 65, 67, 65])
          [107, 50] [33, 34, 35]))
      = .v1 (Cache.set (Cache.set [] [107, 49] [71, 65, 84, 84, 65, 67, 65])
          [107, 50] [33, 34, 35]) := by
  have hstore : Cache.set (Cache.set [] [107, 49] [71, 65, 84, 84, 65, 67, 65])
        [107, 50] [33, 34, 35]
      = [([107, 49], RecordVariant.fasta (encode [71, 65, 84, 84, 65, 67, 65] .Generic)),
         ([107, 50], RecordVariant.fasta (encode [33, 34, 35] .Generic))] := by decide
  rw [hstore]
  exact (save_restore_v1 _ [] (by decide) (by decide) (by decide)
    (by
      intro p hp
      rcases List.mem_cons.mp hp with rfl | hp2
      · exact ⟨[71, 65, 84, 84, 65, 67, 65], rfl, by decide⟩
      · rcases List.mem_cons.mp hp2 with rfl | hp3
        · exact ⟨[33, 34, 35], rfl, by decide⟩
        · simp at hp3)
    (by decide)).2.1

/-! ## Parsers (`SmartStrategy::parse_chunk_fastq` / `parse_chunk_fasta`,
`loadFile`), claims C4, C5, C7 -/

/-- `SmartStrategy::SequenceData`. -/
structure SequenceData where
  id : List Nat
  sequence : List Nat
  quality : List Nat
deriving DecidableEq, Repr

/-- `content.find('\n', start)`: index of the first newline at or after
`start`, `none` for `npos`. -/
def findNL (content : List Nat) (start : Nat) : Option Nat :=
  let tl := ((content.drop start).takeWhile (fun b => b ≠ 10)).length
  if start + tl < content.length then some (start + tl) else none

/-- The `trim_view` lambda of `parse_chunk_fastq` (and the newline
stripping of `FileReader::getline`): drop trailing `\n`/`\r` bytes. -/
def trimView (l : List Nat) : List Nat :=
  (l.reverse.dropWhile (fun b => b = 10 || b = 13)).reverse

/-- `header.substr(1, first_space - 1)`: the id between the sentinel and
the first space (or the end of the line).  The same expression is used by
every header-splitting site in the sources. -/
def keyFromHeader (header : List Nat) : List Nat :=
  match header.findIdx? (fun b => b = 32) with
  | none => header.drop 1
  | some fs => (header.drop 1).take (fs - 1)

/-- `SmartStrategy::parse_chunk_fastq` (lines 664-703), recursion on the
remaining distance as fuel (the loop advances `start_pos` by at least four
every iteration): find the next four newlines, slice and trim header,
sequence and quality, keep the group when the trimmed header is non-empty
and begins with `@`.  No comparison of the sequence and quality lengths is
performed. -/
def parse_chunk_fastq_go (content : List Nat) : Nat → Nat → List SequenceData
  | 0, _ => []
  | fuel + 1, start =>
    if start < content.length then
      match findNL content start with
      | none => []
      | some p1 =>
        match findNL content (p1 + 1) with
        | none => []
        | some p2 =>
          match findNL content (p2 + 1) with
          | none => []
          | some p3 =>
            let p4 := (findNL content (p3 + 1)).getD content.length
            let header := trimView ((content.drop start).take (p1 - start))
            let sq := trimView ((content.drop (p1 + 1)).take (p2 - (p1 + 1)))
            let ql := trimView ((content.drop (p3 + 1)).take (p4 - (p3 + 1)))
            let rest := parse_chunk_fastq_go content fuel (p4 + 1)
            if header ≠ [] ∧ header.getD 0 0 = 64 then
              ⟨keyFromHeader header, sq, ql⟩ :: rest
            else rest
    else []

def parse_chunk_fastq (content : List Nat) : List SequenceData :=
  parse_chunk_fastq_go content (content.length + 1) 0

/-- `SmartStrategy::parse_chunk_fasta` (lines 629-662), same fuel scheme:
line loop that flushes the buffered record on each `>` header (note the
single `remove_suffix(1)` for a trailing `\r`) and at the end of the
slice. -/
def parse_chunk_fasta_go (content : List Nat) :
    Nat → Nat → List Nat → List Nat → List SequenceData
  | 0, _, _, _ => []
  | fuel + 1, start, current_id, current_seq =>
    if start < content.length then
      let ep := (findNL content start).getD content.length
      let line0 := (content.drop start).take (ep - start)
      let line := if line0 ≠ [] ∧ line0.getLast? = some 13 then line0.dropLast else line0
      if line ≠ [] then
        if line.getD 0 0 = 62 then
          (if current_id ≠ [] then [⟨current_id, current_seq, []⟩] else [])
            ++ parse_chunk_fasta_go content fuel (ep + 1) (keyFromHeader line) []
        else
          parse_chunk_fasta_go content fuel (ep + 1) current_id (current_seq ++ line)
      else parse_chunk_fasta_go content fuel (ep + 1) current_id current_seq
    else if current_id ≠ [] then [⟨current_id, current_seq, []⟩] else []

def parse_chunk_fasta (content : List Nat) : List SequenceData :=
  parse_chunk_fasta_go content (content.length + 1) 0 [] []

/-- `FileReader::getline`: split off everything before the next `\n`
(consuming it), strip trailing `\r`/`\n`, fail only at end of input. -/
def getlineFR (content : List Nat) : Option (List Nat × List Nat) :=
  if content = [] then none
  else
    let raw := content.takeWhile (fun b => b ≠ 10)
    some (trimView raw, content.drop (raw.length + 1))

/-- `SmartStrategy::file_cache_`, modelled like `Store` as an association
list. -/
abbrev FileCache := List (List Nat × SequenceData)

/-- `file_cache_[id] = data`. -/
def cacheSet (fc : FileCache) (k : List Nat) (v : SequenceData) : FileCache :=
  if fc.any (fun p => p.1 = k) then fc.map (fun p => if p.1 = k then (k, v) else p)
  else fc ++ [(k, v)]

def cacheLookup (fc : FileCache) (k : List Nat) : Option SequenceData :=
  (fc.find? (fun p => p.1 = k)).map (fun p => p.2)

/-- Folding a parsed chunk into the shared cache
(`file_cache_[seq_data.id] = seq_data` in merge order). -/
def mergeRecords (fc : FileCache) (rs : List SequenceData) : FileCache :=
  rs.foldl (fun fc r => cacheSet fc r.id r) fc

/-- The runtime errors `loadFile` can throw, named after the messages. -/
inductive LoadError where
  | EmptyInputFile
  | CannotReadFile
  | UnknownFormat
deriving DecidableEq, Repr

/-- The single-threaded FASTQ loop of the pre-scan `loadFile`
(SmartStrategy.cpp lines 53-62): skip lines that do not begin with `@`,
then read three more lines and store `{id, seq, qual}`.  A failed read of
the three lines breaks the loop.  Fuel: each iteration consumes at least
one byte. -/
def loadSingleFastqGo : Nat → List Nat → FileCache → FileCache
  | 0, _, fc => fc
  | fuel + 1, content, fc =>
    match getlineFR content with
    | none => fc
    | some (line, rest) =>
      if line = [] ∨ line.getD 0 0 ≠ 64 then loadSingleFastqGo fuel rest fc
      else
        match getlineFR rest with
        | none => fc
        | some (s, rest1) =>
          match getlineFR rest1 with
          | none => fc
          | some (_p, rest2) =>
            match getlineFR rest2 with
            | none => fc
            | some (q, rest3) =>
              loadSingleFastqGo fuel rest3
                (cacheSet fc (keyFromHeader line) ⟨keyFromHeader line, s, q⟩)

/-- The single-threaded FASTA loop of the pre-scan `loadFile`
(SmartStrategy.cpp lines 64-76). -/
def loadSingleFastaGo : Nat → List Nat → FileCache → List Nat → List Nat → FileCache
  | 0, _, fc, _, _ => fc
  | fuel + 1, content, fc, id0, seqbuf =>
    match getlineFR content with
    | none => if id0 ≠ [] then cacheSet fc id0 ⟨id0, seqbuf, []⟩ else fc
    | some (line, rest) =>
      if line = [] then loadSingleFastaGo fuel rest fc id0 seqbuf
      else if line.getD 0 0 = 62 then
        loadSingleFastaGo fuel rest
          (if id0 ≠ [] then cacheSet fc id0 ⟨id0, seqbuf, []⟩ else fc)
          (keyFromHeader line) []
      else loadSingleFastaGo fuel rest fc id0 (seqbuf ++ line)

/-- The pre-scan iteration of `SmartStrategy::loadFile` (lines 25-195) on
a non-gzipped input smaller than 1 MiB, for which the code selects the
single-threaded branch modelled here.  The cache is cleared on entry; an
empty file returns silently; a first line that begins with `@` selects
the FASTQ loop, and ANY other first line (including one that begins with
neither `>` nor `@`) falls through to the FASTA loop — there is no
unknown-format check in this variant. -/
def loadFileV1Small (content : List Nat) : FileCache × Option LoadError :=
  if content.length = 0 then ([], none)
  else
    match getlineFR content with
    | none => ([], some .CannotReadFile)
    | some (firstLine, _) =>
      if firstLine = [] then ([], some .CannotReadFile)
      else if firstLine.getD 0 0 = 64 then
        (loadSingleFastqGo (content.length + 1) content [], none)
      else
        (loadSingleFastaGo (content.length + 1) content [] [] [], none)

/-- The block-read scan loop of `find_next_record_start` (SmartStrategy.cpp
lines 423-447): read up to 4096 bytes, look for `record_start_char`
preceded by a newline at in-block offsets `1 ≤ i < bytes_read`, and on a
full block seek back one byte (1-byte overlap) and continue; a short read
sets `eof` and ends the search at the file size. -/
def fnrsLoop (content : List Nat) (rc : Nat) : Nat → Nat → Nat
  | 0, _ => content.length
  | fuel + 1, pos =>
    let bytesRead := min 4096 (content.length - pos)
    if bytesRead = 0 then content.length
    else
      match (List.range' 1 (bytesRead - 1)).find?
          (fun i => content.getD (pos + i) 0 = rc && content.getD (pos + i - 1) 0 = 10) with
      | some i => pos + i
      | none =>
        if bytesRead < 4096 then content.length
        else fnrsLoop content rc fuel (pos + bytesRead - 1)

def findNextRecordStart (content : List Nat) (approx : Nat) (rc : Nat) : Nat :=
  if approx ≥ content.length then content.length
  else fnrsLoop content rc (content.length + 1) approx

/-- The boundary list of the boundary-variant `loadFile` (lines 449-457):
offset 0, `find_next_record_start(i · chunk_size)` for each remaining
thread, and the file size. -/
def boundariesV2 (content : List Nat) (numThreads : Nat) (rc : Nat) : List Nat :=
  [0] ++ ((List.range (numThreads - 1)).map
    (fun i => findNextRecordStart content ((i + 1) * (content.length / numThreads)) rc))
    ++ [content.length]

/-- Phases 3-4 of the boundary-variant `loadFile`: for each adjacent
boundary pair, skip empty chunks, otherwise parse the byte slice and fold
the records into the cache; futures are merged in thread order. -/
def mergeSlicesGo (content : List Nat) (chunkParse : List Nat → List SequenceData) :
    List Nat → FileCache → FileCache
  | b0 :: b1 :: rest, fc =>
    mergeSlicesGo content chunkParse (b1 :: rest)
      (if b0 ≥ b1 then fc
       else mergeRecords fc (chunkParse ((content.drop b0).take (b1 - b0))))
  | _, fc => fc

/-- The boundary-variant `SmartStrategy::loadFile` (lines 397-494):
empty-file and first-line checks, the unknown-format check, then
record-aligned boundaries and parallel chunk parsing merged in order.
`numThreads` stands for `std::thread::hardware_concurrency()`.  All
errors are thrown after `clearFileCache()`, so they leave the cache
empty. -/
def loadFileV2 (content : List Nat) (numThreads : Nat) :
    FileCache × Option LoadError :=
  if content.length = 0 then ([], some .EmptyInputFile)
  else
    match getlineFR content with
    | none => ([], some .CannotReadFile)
    | some (firstLine, _) =>
      if firstLine = [] then ([], some .CannotReadFile)
      else
        if firstLine.getD 0 0 ≠ 62 ∧ firstLine.getD 0 0 ≠ 64 then
          ([], some .UnknownFormat)
        else
          let is_fastq := firstLine.getD 0 0 = 64
          let rc := if is_fastq then 64 else 62
          let chunkParse := if is_fastq then parse_chunk_fastq else parse_chunk_fasta
          (mergeSlicesGo content chunkParse (boundariesV2 content numThreads rc) [], none)

/-! ## Rendered FASTQ files -/

/-- One well-formed 4-line FASTQ record as bytes:
`@id\n sequence\n +\n quality\n`. -/
def renderRecord (r : SequenceData) : List Nat :=
  [64] ++ r.id ++ [10] ++ r.sequence ++ [10, 43, 10] ++ r.quality ++ [10]

def renderFile (rs : List SequenceData) : List Nat :=
  (rs.map renderRecord).flatten

/-- Well-formedness of a record for rendering: non-empty id without
newline, carriage return or space; sequence and quality without newline
or carriage return. -/
def WFRecord (r : SequenceData) : Prop :=
  r.id ≠ [] ∧ (∀ c ∈ r.id, c ≠ 10 ∧ c ≠ 13 ∧ c ≠ 32)
  ∧ (∀ c ∈ r.sequence, c ≠ 10 ∧ c ≠ 13)
  ∧ (∀ c ∈ r.quality, c ≠ 10 ∧ c ≠ 13)

instance (r : SequenceData) : Decidable (WFRecord r) := by
  unfold WFRecord
  infer_instance

/-- The two-record FASTQ file whose first quality line begins with `@`:
`@r1 / AAAACCCC / + / @IIIIIII` and `@r2 / GGGG / + / JJJJ`. -/
def exFastqRecords : List SequenceData :=
  [⟨[114, 49], [65, 65, 65, 65, 67, 67, 67, 67], [64, 73, 73, 73, 73, 73, 73, 73]⟩,
   ⟨[114, 50], [71, 71, 71, 71], [74, 74, 74, 74]⟩]

set_option maxRecDepth 40000 in
/-- Counterexample to C5 as stated: on the well-formed FASTQ file rendered
from `exFastqRecords` — whose first record's quality line begins with
`@` — the boundary-variant parallel ingest with 4 threads maps `r1` to a
record with empty quality, while single-threaded ingest maps it to the
true record, so the two final mappings differ. -/
theorem parallel_single_threaded_disagree :
    (∀ r ∈ exFastqRecords, WFRecord r)
    ∧ (exFastqRecords.headD ⟨[], [], []⟩).quality.getD 0 0 = 64
    ∧ cacheLookup (loadFileV2 (renderFile exFastqRecords) 4).1 [114, 49]
        ≠ cacheLookup (loadFileV1Small (renderFile exFastqRecords)).1 [114, 49] := by
  decide

set_option maxRecDepth 40000 in
/-- Counterexample to C4 as stated: the 4-line group
`@r / AAA / + / ZZ` has sequence length 3 and quality length 2, yet the
FASTQ chunk parser stores it instead of skipping it (and so does the
single-threaded ingest loop). -/
theorem fastq_length_mismatch_stored :
    parse_chunk_fastq [64, 114, 10, 65, 65, 65, 10, 43, 10, 90, 90, 10]
      = [⟨[114], [65, 65, 65], [90, 90]⟩]
    ∧ (loadFileV1Small [64, 114, 10, 65, 65, 65, 10, 43, 10, 90, 90, 10]).1
      = [([114], ⟨[114], [65, 65, 65], [90, 90]⟩)]
    ∧ ([65, 65, 65] : List Nat).length ≠ ([90, 90] : List Nat).length := by
  decide

/-- Counterexample to C7 as stated: the pre-scan `loadFile` variant
ingests a file whose first line is `XYZ` (neither `>` nor `@`) without
any error, silently treating it as FASTA and leaving the cache empty. -/
theorem loadFileV1Small_no_unknown_format_check :
    loadFileV1Small [88, 89, 90, 10] = ([], none) := by
  decide

/-- C7 (amended): the boundary-variant `loadFile` fails with
`UnknownFormat` whenever the (non-empty) first line begins with neither
`>` (62) nor `@` (64), with the cannot-read error when the first line is
empty, and with the empty-input error on an empty file; every such error
leaves the cache in a clean empty state (the cache is cleared before the
checks run). -/
theorem loadFileV2_error_cases (content : List Nat) (t : Nat) (fl rest : List Nat)
    (hgl : getlineFR content = some (fl, rest)) :
    (fl = [] → loadFileV2 content t = ([], some .CannotReadFile))
    ∧ (fl ≠ [] → fl.getD 0 0 ≠ 62 → fl.getD 0 0 ≠ 64 →
        loadFileV2 content t = ([], some .UnknownFormat))
    ∧ loadFileV2 [] t = ([], some .EmptyInputFile) := by
  have hne : content ≠ [] := by
    intro h
    rw [h] at hgl
    simp [getlineFR] at hgl
  have hlen : ¬ content.length = 0 := by
    intro h
    exact hne (List.eq_nil_of_length_eq_zero h)
  refine ⟨?_, ?_, rfl⟩
  · intro hfl
    unfold loadFileV2
    rw [if_neg hlen, hgl]
    dsimp only
    rw [if_pos hfl]
  · intro hfl h62 h64
    unfold loadFileV2
    rw [if_neg hlen, hgl]
    dsimp only
    rw [if_neg hfl, if_pos ⟨h62, h64⟩]

/-- Witness for C7 (amended): the file `XYZ\n` is rejected with
`UnknownFormat` by the boundary-variant `loadFile`, with an empty cache. -/
theorem loadFileV2_error_cases_witness :
    loadFileV2 [88, 89, 90, 10] 2 = ([], some .UnknownFormat) :=
  (loadFileV2_error_cases [88, 89, 90, 10] 2 [88, 89, 90] [] (by decide)).2.1
    (by decide) (by decide) (by decide)

/-! ## Line-level lemmas about rendered FASTQ files -/

theorem takeWhile_no10 (l : List Nat) (rest : List Nat) (h : ∀ c ∈ l, c ≠ 10) :
    (l ++ 10 :: rest).takeWhile (fun b => b ≠ 10) = l := by
  induction l with
  | nil => simp [List.takeWhile_cons]
  | cons a t ih =>
    rw [List.cons_append, List.takeWhile_cons,
      if_pos (by simpa using h a (by simp)), ih (fun c hc => h c (by simp [hc]))]

theorem trimView_id (l : List Nat) (h : ∀ c ∈ l, c ≠ 10 ∧ c ≠ 13) :
    trimView l = l := by
  unfold trimView
  cases hrev : l.reverse with
  | nil => simp [List.reverse_eq_nil_iff.mp hrev]
  | cons a t =>
    have ha : a ∈ l := by
      rw [← List.reverse_reverse l, hrev]
      simp
    rw [List.dropWhile_cons, if_neg (by simpa using h a ha), ← hrev, List.reverse_reverse]

theorem getlineFR_line (l rest : List Nat) (h : ∀ c ∈ l, c ≠ 10 ∧ c ≠ 13) :
    getlineFR (l ++ 10 :: rest) = some (l, rest) := by
  unfold getlineFR
  rw [if_neg (by simp)]
  dsimp only
  rw [takeWhile_no10 l rest (fun c hc => (h c hc).1), trimView_id l h]
  have hdrop : (l ++ 10 :: rest).drop (l.length + 1) = rest := by
    rw [(by simp : l ++ 10 :: rest = (l ++ [10]) ++ rest),
      List.drop_left' (by simp)]
  rw [hdrop]

theorem findNL_pre (pre l rest : List Nat) (h : ∀ c ∈ l, c ≠ 10) :
    findNL (pre ++ (l ++ 10 :: rest)) pre.length = some (pre.length + l.length) := by
  unfold findNL
  dsimp only
  rw [List.drop_left, takeWhile_no10 l rest h,
    if_pos (by simp only [List.length_append, List.length_cons]; omega)]

theorem findNL_shift (a b : List Nat) (t : Nat) :
    findNL (a ++ b) (a.length + t) = (findNL b t).map (fun x => a.length + x) := by
  unfold findNL
  dsimp only
  rw [List.drop_append t]
  by_cases hc : t + ((b.drop t).takeWhile (fun b => b ≠ 10)).length < b.length
  · rw [if_pos (by simp only [List.length_append]; omega), if_pos hc,
      Option.map_some']
    have : a.length + t + ((b.drop t).takeWhile (fun b => b ≠ 10)).length
        = a.length + (t + ((b.drop t).takeWhile (fun b => b ≠ 10)).length) := by omega
    rw [this]
  · rw [if_neg (by simp only [List.length_append]; omega), if_neg hc]
    rfl

theorem parse_go_shift (a b : List Nat) :
    ∀ fuel t, parse_chunk_fastq_go (a ++ b) fuel (a.length + t)
      = parse_chunk_fastq_go b fuel t := by
  intro fuel
  induction fuel with
  | zero => intro t; rfl
  | succ fuel ih =>
    intro t
    rw [parse_chunk_fastq_go, parse_chunk_fastq_go]
    by_cases h0 : t < b.length
    · rw [if_pos (by simp only [List.length_append]; omega), if_pos h0, findNL_shift]
      cases hp1 : findNL b t with
      | none => rfl
      | some p1 =>
        rw [Option.map_some']
        dsimp only
        rw [(by omega : a.length + p1 + 1 = a.length + (p1 + 1)), findNL_shift]
        cases hp2 : findNL b (p1 + 1) with
        | none => rfl
        | some p2 =>
          rw [Option.map_some']
          dsimp only
          rw [(by omega : a.length + p2 + 1 = a.length + (p2 + 1)), findNL_shift]
          cases hp3 : findNL b (p2 + 1) with
          | none => rfl
          | some p3 =>
            rw [Option.map_some']
            dsimp only
            rw [(by omega : a.length + p3 + 1 = a.length + (p3 + 1)), findNL_shift]
            have hp4 : ((findNL b (p3 + 1)).map (fun x => a.length + x)).getD
                  (a ++ b).length
                = a.length + (findNL b (p3 + 1)).getD b.length := by
              cases findNL b (p3 + 1) with
              | none => simp
              | some x => simp
            rw [hp4]
            rw [List.drop_append t, List.drop_append (p1 + 1), List.drop_append (p3 + 1)]
            rw [(by omega : a.length + p1 - (a.length + t) = p1 - t),
              (by omega : a.length + p2 - (a.length + (p1 + 1)) = p2 - (p1 + 1)),
              (by omega : a.length + (findNL b (p3 + 1)).getD b.length
                  - (a.length + (p3 + 1)) = (findNL b (p3 + 1)).getD b.length - (p3 + 1)),
              (by omega : a.length + (findNL b (p3 + 1)).getD b.length + 1
                  = a.length + ((findNL b (p3 + 1)).getD b.length + 1)),
              ih]
    · rw [if_neg (by simp only [List.length_append]; omega), if_neg h0]

theorem findNL_zero (l rest : List Nat) (h : ∀ c ∈ l, c ≠ 10) :
    findNL (l ++ 10 :: rest) 0 = some l.length := by
  have h0 := findNL_pre [] l rest h
  simpa using h0

/-- `findNL_pre` restated with the content and indices as equational
hypotheses, so that call sites can discharge the reshaping by `simp`. -/
theorem findNL_at (pre l rest content : List Nat) (n m : Nat)
    (hc : content = pre ++ (l ++ 10 :: rest)) (hn : n = pre.length)
    (hm : m = pre.length + l.length) (h : ∀ c ∈ l, c ≠ 10) :
    findNL content n = some m := by
  subst hc; subst hn; subst hm
  exact findNL_pre pre l rest h

/-- Slicing a line out of `pre ++ (l ++ rest)` between indices `pre.length`
and `pre.length + l.length` recovers `l` after trimming, when `l` has no
line-break bytes. -/
theorem trim_slice (pre l rest content : List Nat) (i j : Nat)
    (hc : content = pre ++ (l ++ rest)) (hi : i = pre.length)
    (hj : j = pre.length + l.length) (h : ∀ c ∈ l, c ≠ 10 ∧ c ≠ 13) :
    trimView ((content.drop i).take (j - i)) = l := by
  subst hc; subst hi; subst hj
  rw [List.drop_left, Nat.add_sub_cancel_left, List.take_left]
  exact trimView_id l h

/-- `parse_go_shift` restated with equational hypotheses for call sites. -/
theorem parse_go_at (a b content : List Nat) (fuel n : Nat)
    (hc : content = a ++ b) (hn : n = a.length) :
    parse_chunk_fastq_go content fuel n = parse_chunk_fastq_go b fuel 0 := by
  subst hc; subst hn
  have h0 := parse_go_shift a b fuel 0
  simpa using h0

/-- A well-delimited 4-line group is parsed into one record exactly when
its header is non-empty and begins with `@`; no other property of the
four lines — in particular no relation between the sequence and quality
lengths — plays any role. -/
theorem parse_go_group (h s p q tail : List Nat) (fuel : Nat)
    (hh : ∀ c ∈ h, c ≠ 10 ∧ c ≠ 13) (hs : ∀ c ∈ s, c ≠ 10 ∧ c ≠ 13)
    (hp10 : ∀ c ∈ p, c ≠ 10) (hq : ∀ c ∈ q, c ≠ 10 ∧ c ≠ 13) :
    parse_chunk_fastq_go (h ++ 10 :: (s ++ 10 :: (p ++ 10 :: (q ++ 10 :: tail))))
        (fuel + 1) 0
      = (if h ≠ [] ∧ h.getD 0 0 = 64 then [⟨keyFromHeader h, s, q⟩] else [])
        ++ parse_chunk_fastq_go tail fuel 0 := by
  have e1 : findNL (h ++ 10 :: (s ++ 10 :: (p ++ 10 :: (q ++ 10 :: tail)))) 0
      = some h.length :=
    findNL_at [] h (s ++ 10 :: (p ++ 10 :: (q ++ 10 :: tail))) _ 0 h.length
      (by simp) rfl (by simp) (fun c hc => (hh c hc).1)
  have e2 : findNL (h ++ 10 :: (s ++ 10 :: (p ++ 10 :: (q ++ 10 :: tail))))
        (h.length + 1)
      = some (h.length + 1 + s.length) :=
    findNL_at (h ++ [10]) s (p ++ 10 :: (q ++ 10 :: tail)) _ _ _
      (by simp) (by simp) (by simp) (fun c hc => (hs c hc).1)
  have e3 : findNL (h ++ 10 :: (s ++ 10 :: (p ++ 10 :: (q ++ 10 :: tail))))
        (h.length + 1 + s.length + 1)
      = some (h.length + 1 + s.length + 1 + p.length) :=
    findNL_at ((h ++ [10]) ++ (s ++ [10])) p (q ++ 10 :: tail) _ _ _
      (by simp)
      (by simp only [List.length_append, List.length_cons, List.length_nil]; omega)
      (by simp only [List.length_append, List.length_cons, List.length_nil]; omega)
      hp10
  have e4 : findNL (h ++ 10 :: (s ++ 10 :: (p ++ 10 :: (q ++ 10 :: tail))))
        (h.length + 1 + s.length + 1 + p.length + 1)
      = some (h.length + 1 + s.length + 1 + p.length + 1 + q.length) :=
    findNL_at ((h ++ [10]) ++ (s ++ [10]) ++ (p ++ [10])) q tail _ _ _
      (by simp)
      (by simp only [List.length_append, List.length_cons, List.length_nil]; omega)
      (by simp only [List.length_append, List.length_cons, List.length_nil]; omega)
      (fun c hc => (hq c hc).1)
  have f1 : trimView (((h ++ 10 :: (s ++ 10 :: (p ++ 10 :: (q ++ 10 :: tail)))).drop 0).take
        (h.length - 0)) = h :=
    trim_slice [] h (10 :: (s ++ 10 :: (p ++ 10 :: (q ++ 10 :: tail)))) _ 0 h.length
      (by simp) rfl (by simp) hh
  have f2 : trimView (((h ++ 10 :: (s ++ 10 :: (p ++ 10 :: (q ++ 10 :: tail)))).drop
        (h.length + 1)).take (h.length + 1 + s.length - (h.length + 1))) = s :=
    trim_slice (h ++ [10]) s (10 :: (p ++ 10 :: (q ++ 10 :: tail))) _ _ _
      (by simp) (by simp) (by simp) hs
  have f3 : trimView (((h ++ 10 :: (s ++ 10 :: (p ++ 10 :: (q ++ 10 :: tail)))).drop
        (h.length + 1 + s.length + 1 + p.length + 1)).take
        (h.length + 1 + s.length + 1 + p.length + 1 + q.length
          - (h.length + 1 + s.length + 1 + p.length + 1))) = q :=
    trim_slice ((h ++ [10]) ++ (s ++ [10]) ++ (p ++ [10])) q (10 :: tail) _ _ _
      (by simp)
      (by simp only [List.length_append, List.length_cons, List.length_nil]; omega)
      (by simp only [List.length_append, List.length_cons, List.length_nil]; omega)
      hq
  have f4 : parse_chunk_fastq_go (h ++ 10 :: (s ++ 10 :: (p ++ 10 :: (q ++ 10 :: tail))))
        fuel (h.length + 1 + s.length + 1 + p.length + 1 + q.length + 1)
      = parse_chunk_fastq_go tail fuel 0 :=
    parse_go_at ((h ++ [10]) ++ (s ++ [10]) ++ (p ++ [10]) ++ (q ++ [10])) tail _ fuel _
      (by simp)
      (by simp only [List.length_append, List.length_cons, List.length_nil]; omega)
  rw [parse_chunk_fastq_go,
    if_pos (show (0 : Nat) < (h ++ 10 :: (s ++ 10 :: (p ++ 10 :: (q ++ 10 :: tail)))).length
      by simp), e1]
  dsimp only
  rw [e2]
  dsimp only
  rw [e3]
  dsimp only
  rw [e4]
  simp only [Option.getD_some]
  rw [f1, f2, f3, f4]
  by_cases hcond : h ≠ [] ∧ h.getD 0 0 = 64
  · rw [if_pos hcond, if_pos hcond, List.singleton_append]
  · rw [if_neg hcond, if_neg hcond, List.nil_append]

theorem parse_go_nil (fuel t : Nat) : parse_chunk_fastq_go [] fuel t = [] := by
  cases fuel with
  | zero => rfl
  | succ fuel => rw [parse_chunk_fastq_go, if_neg (by simp)]

/-- `header.substr(1, ...)` on a spaceless `@id` header yields `id`. -/
theorem keyFromHeader_at (id0 : List Nat) (h : ∀ c ∈ id0, c ≠ 32) :
    keyFromHeader (64 :: id0) = id0 := by
  unfold keyFromHeader
  have hnone : (64 :: id0).findIdx? (fun b => b = 32) = none := by
    rw [List.findIdx?_eq_none_iff]
    intro x hx
    rcases List.mem_cons.mp hx with rfl | hx
    · simp
    · simp [h x hx]
  rw [hnone]
  rfl

theorem renderFile_cons (r : SequenceData) (rs : List SequenceData) :
    renderFile (r :: rs) = renderRecord r ++ renderFile rs := by
  simp [renderFile]

theorem length_renderFile_ge (rs : List SequenceData) :
    rs.length ≤ (renderFile rs).length := by
  induction rs with
  | nil => simp [renderFile]
  | cons r t ih =>
    rw [renderFile_cons]
    have hr : 1 ≤ (renderRecord r).length := by
      simp only [renderRecord, List.length_append, List.length_cons, List.length_nil]
      omega
    simp only [List.length_append, List.length_cons]
    omega

/-- Parsing the rendered file of well-formed records recovers all the
records, with any fuel of at least one step per record. -/
theorem parse_go_render (rs : List SequenceData) :
    ∀ fuel, rs.length ≤ fuel → (∀ r ∈ rs, WFRecord r) →
      parse_chunk_fastq_go (renderFile rs) fuel 0 = rs := by
  induction rs with
  | nil =>
    intro fuel _ _
    exact parse_go_nil fuel 0
  | cons r rs ih =>
    intro fuel hf hwf
    have hf' : rs.length + 1 ≤ fuel := by simpa using hf
    obtain ⟨fuel, rfl⟩ : ∃ f, fuel = f + 1 := ⟨fuel - 1, by omega⟩
    obtain ⟨hid, hidc, hseq, hqual⟩ := hwf r (List.mem_cons_self r rs)
    have hh64 : ∀ c ∈ (64 :: r.id), c ≠ 10 ∧ c ≠ 13 := by
      intro c hc
      rcases List.mem_cons.mp hc with rfl | hc
      · exact ⟨by omega, by omega⟩
      · exact ⟨(hidc c hc).1, (hidc c hc).2.1⟩
    have hshape : renderFile (r :: rs)
        = (64 :: r.id) ++ 10 :: (r.sequence
            ++ 10 :: ([43] ++ 10 :: (r.quality ++ 10 :: renderFile rs))) := by
      rw [renderFile_cons]
      simp [renderRecord]
    rw [hshape, parse_go_group (64 :: r.id) r.sequence [43] r.quality (renderFile rs) fuel
        hh64 hseq (by intro c hc; simp at hc; omega) hqual,
      if_pos ⟨by simp, rfl⟩,
      keyFromHeader_at r.id (fun c hc => (hidc c hc).2.2),
      ih fuel (by omega) (fun x hx => hwf x (List.mem_cons_of_mem r hx))]
    rfl

/-- `parse_chunk_fastq` on a whole rendered file of well-formed records
returns exactly those records. -/
theorem parse_render (rs : List SequenceData) (hwf : ∀ r ∈ rs, WFRecord r) :
    parse_chunk_fastq (renderFile rs) = rs :=
  parse_go_render rs ((renderFile rs).length + 1)
    (le_trans (length_renderFile_ge rs) (Nat.le_succ _)) hwf

/-- C4 (amended): the FASTQ chunk parser performs no comparison between
the sequence-line and quality-line lengths.  Any well-delimited four-line
group whose header is non-empty and begins with `@` is stored as a record
carrying the sequence and quality lines exactly as read — also when their
lengths differ — so `|decoded sequence| == |decoded quality|` is NOT an
invariant of FASTQ ingest. -/
theorem fastq_no_length_check (h s p q : List Nat)
    (hh : ∀ c ∈ h, c ≠ 10 ∧ c ≠ 13) (hs : ∀ c ∈ s, c ≠ 10 ∧ c ≠ 13)
    (hp10 : ∀ c ∈ p, c ≠ 10) (hq : ∀ c ∈ q, c ≠ 10 ∧ c ≠ 13)
    (hne : h ≠ []) (hat : h.getD 0 0 = 64) :
    parse_chunk_fastq (h ++ 10 :: (s ++ 10 :: (p ++ 10 :: (q ++ [10]))))
      = [⟨keyFromHeader h, s, q⟩] := by
  unfold parse_chunk_fastq
  have hlen : (h ++ 10 :: (s ++ 10 :: (p ++ 10 :: (q ++ [10])))).length
      = h.length + s.length + p.length + q.length + 3 + 1 := by
    simp only [List.length_append, List.length_cons, List.length_nil]
    omega
  rw [hlen, parse_go_group h s p q [] _ hh hs hp10 hq,
    if_pos ⟨hne, hat⟩, parse_go_nil, List.append_nil]

/-- Witness for `fastq_no_length_check`: the group `@k / AAA / + / I` has a
3-byte sequence and a 1-byte quality, yet parses to a stored record. -/
theorem fastq_no_length_check_witness :
    ([65, 65, 65] : List Nat).length ≠ ([73] : List Nat).length
    ∧ parse_chunk_fastq ([64, 107] ++ 10 :: ([65, 65, 65]
        ++ 10 :: ([43] ++ 10 :: ([73] ++ [10]))))
      = [⟨keyFromHeader [64, 107], [65, 65, 65], [73]⟩] :=
  ⟨by decide, fastq_no_length_check [64, 107] [65, 65, 65] [43] [73]
    (by decide) (by decide) (by decide) (by decide) (by decide) (by decide)⟩

theorem WF_header_chars (r : SequenceData) (hwf : WFRecord r) :
    ∀ c ∈ (64 :: r.id), c ≠ 10 ∧ c ≠ 13 := by
  intro c hc
  rcases List.mem_cons.mp hc with rfl | hc
  · exact ⟨by omega, by omega⟩
  · exact ⟨(hwf.2.1 c hc).1, (hwf.2.1 c hc).2.1⟩

theorem renderFile_shape (r : SequenceData) (rs : List SequenceData) :
    renderFile (r :: rs) = (64 :: r.id) ++ 10 :: (r.sequence
        ++ 10 :: ([43] ++ 10 :: (r.quality ++ 10 :: renderFile rs))) := by
  rw [renderFile_cons]
  simp [renderRecord]

theorem getlineFR_render_cons (r : SequenceData) (rs : List SequenceData)
    (hwf : WFRecord r) :
    getlineFR (renderFile (r :: rs))
      = some (64 :: r.id, r.sequence
          ++ 10 :: ([43] ++ 10 :: (r.quality ++ 10 :: renderFile rs))) := by
  rw [renderFile_shape]
  exact getlineFR_line _ _ (WF_header_chars r hwf)

/-- The single-threaded FASTQ loop on a rendered file of well-formed
records folds exactly those records into the cache, with any fuel of at
least one step per record. -/
theorem loadSingleFastqGo_render (rs : List SequenceData) :
    ∀ fuel fc, rs.length ≤ fuel → (∀ r ∈ rs, WFRecord r) →
      loadSingleFastqGo fuel (renderFile rs) fc = mergeRecords fc rs := by
  induction rs with
  | nil =>
    intro fuel fc _ _
    cases fuel with
    | zero => rfl
    | succ fuel => rfl
  | cons r rs ih =>
    intro fuel fc hf hwf
    have hf' : rs.length + 1 ≤ fuel := by simpa using hf
    obtain ⟨fuel, rfl⟩ : ∃ f, fuel = f + 1 := ⟨fuel - 1, by omega⟩
    have hwfr := hwf r (List.mem_cons_self r rs)
    rw [loadSingleFastqGo, getlineFR_render_cons r rs hwfr]
    dsimp only
    rw [if_neg (by simp)]
    rw [getlineFR_line r.sequence _ hwfr.2.2.1]
    dsimp only
    rw [getlineFR_line [43] _ (by intro c hc; simp at hc; omega)]
    dsimp only
    rw [getlineFR_line r.quality _ hwfr.2.2.2]
    dsimp only
    rw [keyFromHeader_at r.id (fun c hc => (hwfr.2.1 c hc).2.2),
      ih fuel _ (by omega) (fun x hx => hwf x (List.mem_cons_of_mem r hx))]
    rfl

/-- The pre-scan single-threaded `loadFile` on a rendered FASTQ file of
well-formed records succeeds and caches exactly those records. -/
theorem loadFileV1Small_render (rs : List SequenceData)
    (hwf : ∀ r ∈ rs, WFRecord r) :
    loadFileV1Small (renderFile rs) = (mergeRecords [] rs, none) := by
  cases rs with
  | nil => rfl
  | cons r rs =>
    have hwfr := hwf r (List.mem_cons_self r rs)
    have hlen : ¬((renderFile (r :: rs)).length = 0) := by
      have h1 := length_renderFile_ge (r :: rs)
      simp only [List.length_cons] at h1
      omega
    unfold loadFileV1Small
    rw [if_neg hlen, getlineFR_render_cons r rs hwfr]
    dsimp only
    rw [if_neg (by simp), if_pos (show (64 :: r.id).getD 0 0 = 64 from rfl),
      loadSingleFastqGo_render (r :: rs) ((renderFile (r :: rs)).length + 1) []
        (le_trans (length_renderFile_ge (r :: rs)) (Nat.le_succ _)) hwf]

theorem mergeRecords_append (fc : FileCache) (a b : List SequenceData) :
    mergeRecords (mergeRecords fc a) b = mergeRecords fc (a ++ b) := by
  simp [mergeRecords, List.foldl_append]

theorem renderFile_append (a b : List SequenceData) :
    renderFile (a ++ b) = renderFile a ++ renderFile b := by
  simp [renderFile]

theorem slice_of_append (A B C : List Nat) :
    ((A ++ (B ++ C)).drop A.length).take ((A ++ B).length - A.length) = B := by
  rw [List.drop_left, List.length_append, Nat.add_sub_cancel_left, List.take_left]

/-- The byte slice of a rendered file between the byte offsets of record
indices `i ≤ j` is exactly the rendered sublist of records `i..j`. -/
theorem render_slice (rs : List SequenceData) (i j : Nat) (hij : i ≤ j) :
    ((renderFile rs).drop (renderFile (rs.take i)).length).take
        ((renderFile (rs.take j)).length - (renderFile (rs.take i)).length)
      = renderFile ((rs.take j).drop i) := by
  have key : rs.take i ++ (rs.take j).drop i = rs.take j := by
    conv_rhs => rw [← List.take_append_drop i (rs.take j)]
    rw [List.take_take, inf_eq_left.mpr hij]
  have hrs : renderFile rs
      = renderFile (rs.take i)
        ++ (renderFile ((rs.take j).drop i) ++ renderFile (rs.drop j)) := by
    rw [← renderFile_append, ← renderFile_append, ← List.append_assoc, key,
      List.take_append_drop]
  have hj' : renderFile (rs.take j)
      = renderFile (rs.take i) ++ renderFile ((rs.take j).drop i) := by
    rw [← renderFile_append, key]
  rw [hrs, hj']
  exact slice_of_append _ _ _

/-- Byte offsets of record starts grow strictly with the record index. -/
theorem renderFile_take_lt (rs : List SequenceData) (i k : Nat)
    (hik : i < k) (hk : k ≤ rs.length) :
    (renderFile (rs.take i)).length < (renderFile (rs.take k)).length := by
  have key : rs.take i ++ (rs.take k).drop i = rs.take k := by
    conv_rhs => rw [← List.take_append_drop i (rs.take k)]
    rw [List.take_take, inf_eq_left.mpr (le_of_lt hik)]
  have h2 := congrArg (fun l => (renderFile l).length) key.symm
  simp only [renderFile_append, List.length_append] at h2
  have h3 : 1 ≤ ((rs.take k).drop i).length := by
    rw [List.length_drop, List.length_take]
    omega
  have h4 := length_renderFile_ge ((rs.take k).drop i)
  omega

theorem drop_take_drop (rs : List SequenceData) (i k : Nat) (hik : i ≤ k) :
    (rs.take k).drop i ++ rs.drop k = rs.drop i := by
  rw [List.drop_take]
  have h1 : rs.drop k = (rs.drop i).drop (k - i) := by
    rw [List.drop_drop]
    congr 1
    omega
  rw [h1, List.take_append_drop]

/-- Phases 3-4 of the boundary-variant `loadFile` on a rendered file: if
every boundary is the byte offset of a record start (record indices
forming a weakly increasing list from `i` ending at `rs.length`), the
merge accumulates exactly the records from index `i` on. -/
theorem mergeSlices_render (rs : List SequenceData)
    (hwf : ∀ r ∈ rs, WFRecord r) (ks : List Nat) :
    ∀ (i : Nat) (fc : FileCache),
      List.Chain' (· ≤ ·) (i :: ks) → (∀ k ∈ ks, k ≤ rs.length) →
      (i :: ks).getLast? = some rs.length →
      mergeSlicesGo (renderFile rs) parse_chunk_fastq
          ((i :: ks).map (fun k => (renderFile (rs.take k)).length)) fc
        = mergeRecords fc (rs.drop i) := by
  induction ks with
  | nil =>
    intro i fc _ _ hlast
    have hi : i = rs.length := by simpa using hlast
    subst hi
    rw [List.map_cons, List.map_nil, List.drop_length]
    rfl
  | cons k ks ih =>
    intro i fc hchain hle hlast
    obtain ⟨hik, hchain'⟩ := List.chain'_cons.mp hchain
    rw [List.getLast?_cons_cons] at hlast
    have hk : k ≤ rs.length := hle k (List.mem_cons_self k ks)
    have hle' : ∀ x ∈ ks, x ≤ rs.length := fun x hx => hle x (List.mem_cons_of_mem k hx)
    simp only [List.map_cons]
    rw [mergeSlicesGo]
    by_cases hik2 : i = k
    · subst hik2
      rw [if_pos (Nat.le_refl _)]
      have h0 := ih i fc hchain' hle' hlast
      simp only [List.map_cons] at h0
      exact h0
    · have hlt := renderFile_take_lt rs i k (Nat.lt_of_le_of_ne hik hik2) hk
      rw [if_neg (by omega), render_slice rs i k hik,
        parse_render ((rs.take k).drop i)
          (fun x hx => hwf x (List.mem_of_mem_take (List.mem_of_mem_drop hx)))]
      have h0 := ih k (mergeRecords fc ((rs.take k).drop i)) hchain' hle' hlast
      simp only [List.map_cons] at h0
      rw [h0, mergeRecords_append, drop_take_drop rs i k hik]

/-- C5 (amended): parallel ingest agrees with single-threaded ingest of
the same rendered FASTQ file whenever every chunk boundary used by the
merge is the byte offset of a record start.  (The boundary discovery of
`find_next_record_start` does not guarantee this — see the counterexample
— but the merge phase itself is correct for record-aligned boundaries:
for any weakly increasing list of record indices from `0` to the record
count, merging the chunk parses of the induced byte slices equals the
single-threaded result.) -/
theorem parallel_ingest_agrees_on_record_starts (rs : List SequenceData)
    (hwf : ∀ r ∈ rs, WFRecord r) (ks : List Nat)
    (hchain : List.Chain' (· ≤ ·) (0 :: ks))
    (hle : ∀ k ∈ ks, k ≤ rs.length)
    (hlast : (0 :: ks).getLast? = some rs.length) :
    mergeSlicesGo (renderFile rs) parse_chunk_fastq
        ((0 :: ks).map (fun k => (renderFile (rs.take k)).length)) []
      = (loadFileV1Small (renderFile rs)).1 := by
  rw [loadFileV1Small_render rs hwf]
  have h0 := mergeSlices_render rs hwf ks 0 [] hchain hle hlast
  rw [List.drop_zero] at h0
  exact h0

set_option maxRecDepth 8000 in
/-- Witness for `parallel_ingest_agrees_on_record_starts`: the two-record
file of `exFastqRecords` with record-aligned cuts `0, 1, 2`. -/
theorem parallel_ingest_agrees_on_record_starts_witness :
    (∀ r ∈ exFastqRecords, WFRecord r)
    ∧ List.Chain' (· ≤ ·) (0 :: [1, 2])
    ∧ (∀ k ∈ [1, 2], k ≤ exFastqRecords.length)
    ∧ (0 :: [1, 2]).getLast? = some exFastqRecords.length
    ∧ mergeSlicesGo (renderFile exFastqRecords) parse_chunk_fastq
        ((0 :: [1, 2]).map (fun k => (renderFile (exFastqRecords.take k)).length)) []
      = (loadFileV1Small (renderFile exFastqRecords)).1 :=
  ⟨by decide, by norm_num [List.chain'_cons], by decide, by decide,
   parallel_ingest_agrees_on_record_starts exFastqRecords (by decide) [1, 2]
     (by norm_num [List.chain'_cons]) (by decide) (by decide)⟩

end TracEon
